import Mathlib

/-!
Verification of the CallbackList core of the eventpp library
(src/include/eventpp/callbacklist.h), shallowly embedded.

The doubly linked list of callbacks is modelled as an explicit heap:
node ids are natural numbers, `Heap = Nat → Option Node` is the heap,
and the `NodePtr` links of the C++ become optional node ids.  Callbacks
are abstracted as numeric identifiers; a dispatch is modelled by the
trace of callback identifiers it invokes, in order.  The 64-bit
`currentCounter` is a natural number kept below `2 ^ 64`, with the
wrap-around of `fetch_add` made explicit by `% 2 ^ 64`.  The quiescent
(sequential) semantics of each operation is translated line by line
from the source.
-/

set_option linter.unusedVariables false

namespace Eventpp

/-- Width of the node counter type (`uint64_t`): counters live below `2 ^ 64`. -/
def counterMod : Nat := 2 ^ 64

/-- A node of the doubly linked callback list (`struct Node`).
`previous`/`next` are the `NodePtr` links, as optional node ids.
`callback` abstracts the stored `Callback` value as a numeric identifier.
`counter` is the 64-bit visibility counter (`0` is the `removedCounter` sentinel).
`alive` models whether the node is still strongly referenced (so weak `Handle`s
can lock it): the list holds the strong references, and `remove` drops the last
one when its local `NodePtr` dies. -/
structure Node where
  previous : Option Nat
  next : Option Nat
  callback : Nat
  counter : Nat
  alive : Bool
deriving DecidableEq, Repr

/-- A heap of allocated nodes, indexed by node id. -/
def Heap : Type := Nat → Option Node

/-- The state of a `CallbackListBase`: the heap of ever-allocated nodes,
a fresh-id allocator, the `head`/`tail` pointers and the atomic `currentCounter`. -/
structure CallbackList where
  nodes : Heap
  nextId : Nat
  head : Option Nat
  tail : Option Nat
  currentCounter : Nat

/-- Overwrite the heap cell of node `i`. -/
def setNode (s : CallbackList) (i : Nat) (n : Node) : CallbackList :=
  { s with nodes := fun j => if j = i then some n else s.nodes j }

/-- Update the heap cell of node `i` in place (no-op when the cell is empty). -/
def updateNode (s : CallbackList) (i : Nat) (f : Node → Node) : CallbackList :=
  match s.nodes i with
  | some n => setNode s i (f n)
  | none => s

/-- The overflow walk in `getNextCounter`:
`node = head; while(node) { node->counter = 1; node = node->next; }`.
Fuel-bounded; on well-formed states fuel `nextId` bounds the chain length. -/
def resetCountersFrom (s : CallbackList) : Nat → Option Nat → CallbackList
  | 0, _ => s
  | _ + 1, none => s
  | fuel + 1, some i =>
    match s.nodes i with
    | none => s
    | some n => resetCountersFrom (setNode s i { n with counter := 1 }) fuel n.next

/-- `getNextCounter`: `fetch_add(1)` then `load`; on wrap to `0`, rewrite every
node reachable from `head` to counter `1`, increment off zero, and re-read.
Returns the counter handed to the new node together with the updated state. -/
def getNextCounter (s : CallbackList) : Nat × CallbackList :=
  let s0 : CallbackList := { s with currentCounter := (s.currentCounter + 1) % counterMod }
  if s0.currentCounter = 0 then
    let s1 := resetCountersFrom s0 s0.nextId s0.head
    let s2 : CallbackList := { s1 with currentCounter := (s1.currentCounter + 1) % counterMod }
    (s2.currentCounter, s2)
  else
    (s0.currentCounter, s0)

/-- `std::make_shared<Node>(callback, counter)`: a fresh node with null links,
strongly referenced by its creator. -/
def allocNode (s : CallbackList) (cb counter : Nat) : Nat × CallbackList :=
  (s.nextId,
   { s with
      nodes := fun j => if j = s.nextId then some ⟨none, none, cb, counter, true⟩ else s.nodes j,
      nextId := s.nextId + 1 })

/-- The linking step of `append`, after the fresh counter `cnt` has been
obtained: allocate, then `node->previous = tail; tail->next = node; tail = node`
under the mutex, or make the node the whole list when empty. -/
def appendLink (q : CallbackList) (cb cnt : Nat) : Nat × CallbackList :=
  let a := allocNode q cb cnt
  let i := a.1
  let s1 := a.2
  match s1.head with
  | some _ =>
    let s2 := updateNode s1 i (fun m => { m with previous := s1.tail })
    let s3 :=
      match s1.tail with
      | some t => updateNode s2 t (fun m => { m with next := some i })
      | none => s2
    (i, { s3 with tail := some i })
  | none => (i, { s1 with head := some i, tail := some i })

/-- `append`: a fresh counter from `getNextCounter`, then the linking step.
Returns the new node's id (the Handle) and the state. -/
def append (s : CallbackList) (cb : Nat) : Nat × CallbackList :=
  let r := getNextCounter s
  appendLink r.2 cb r.1

/-- The linking step of `prepend`: allocate, then
`node->next = head; head->previous = node; head = node`, or make the node the
whole list when empty. -/
def prependLink (q : CallbackList) (cb cnt : Nat) : Nat × CallbackList :=
  let a := allocNode q cb cnt
  let i := a.1
  let s1 := a.2
  match s1.head with
  | some h0 =>
    let s2 := updateNode s1 i (fun m => { m with next := some h0 })
    let s3 := updateNode s2 h0 (fun m => { m with previous := some i })
    (i, { s3 with head := some i })
  | none => (i, { s1 with head := some i, tail := some i })

/-- `prepend`: a fresh counter from `getNextCounter`, then the linking step. -/
def prepend (s : CallbackList) (cb : Nat) : Nat × CallbackList :=
  let r := getNextCounter s
  prependLink r.2 cb r.1

/-- `Handle::lock()`: upgrade the weak handle; succeeds only while the node is
still strongly referenced. -/
def lockHandle (s : CallbackList) (h : Nat) : Option Nat :=
  match s.nodes h with
  | some n => if n.alive then some h else none
  | none => none

/-- `Handle::operator bool`: `!expired()`. -/
def handleLive (s : CallbackList) (h : Nat) : Bool :=
  match s.nodes h with
  | some n => n.alive
  | none => false

/-- `doInsert(node, beforeNode)`: `node->previous = beforeNode->previous;
node->next = beforeNode; if(beforeNode->previous) beforeNode->previous->next = node;
beforeNode->previous = node; if(beforeNode == head) head = node;`. -/
def doInsert (s : CallbackList) (i b : Nat) : CallbackList :=
  match s.nodes i, s.nodes b with
  | some n, some bn =>
    let s1 := setNode s i { n with previous := bn.previous, next := some b }
    let s2 :=
      match bn.previous with
      | some p => updateNode s1 p (fun m => { m with next := some i })
      | none => s1
    let s3 := updateNode s2 b (fun m => { m with previous := some i })
    if s3.head = some b then { s3 with head := some i } else s3
  | _, _ => s

/-- The linking step of `insert` when the Handle upgraded to node `b`:
allocate, then `doInsert` before `b`. -/
def insertLink (q : CallbackList) (cb cnt b : Nat) : Nat × CallbackList :=
  let a := allocNode q cb cnt
  (a.1, doInsert a.2 a.1 b)

/-- `insert(callback, before)`: upgrade the weak Handle; if the node is gone,
fall back to `append`, otherwise take a fresh counter, allocate and `doInsert`
before it. -/
def insert (s : CallbackList) (cb : Nat) (before : Nat) : Nat × CallbackList :=
  match lockHandle s before with
  | some b =>
    let r := getNextCounter s
    insertLink r.2 cb r.1 b
  | none => append s cb

/-- `doRemoveNode`: fix the neighbours' links, fix `head`/`tail` when they point
at the node, and stamp the node's counter with the `removedCounter` sentinel;
the node's own `previous`/`next` are deliberately not modified. -/
def doRemoveNode (s : CallbackList) (i : Nat) : CallbackList :=
  match s.nodes i with
  | none => s
  | some n =>
    let s1 :=
      match n.next with
      | some j => updateNode s j (fun m => { m with previous := n.previous })
      | none => s
    let s2 :=
      match n.previous with
      | some p => updateNode s1 p (fun m => { m with next := n.next })
      | none => s1
    let s3 := if s2.head = some i then { s2 with head := n.next } else s2
    let s4 := if s3.tail = some i then { s3 with tail := n.previous } else s3
    updateNode s4 i (fun m => { m with counter := 0 })

/-- `remove(handle)`: lock; if live, splice out via `doRemoveNode` and drop the
list's strong reference (the node is destroyed once the local `NodePtr` dies,
so outstanding weak Handles expire). -/
def remove (s : CallbackList) (h : Nat) : Bool × CallbackList :=
  match lockHandle s h with
  | some i => (true, updateNode (doRemoveNode s i) i (fun m => { m with alive := false }))
  | none => (false, s)

/-- The per-node test of `doForEachIf`:
`node->counter != removedCounter && counter >= node->counter`. -/
def eligible (snapshot : Nat) (n : Node) : Bool :=
  n.counter != 0 && decide (n.counter ≤ snapshot)

/-- The loop of `doForEachIf`, over an explicit visitor that threads state `acc`
and returns a continue flag; fuel-bounded (fuel `nextId` suffices on
well-formed states). -/
def doForEachIfFrom {σ : Type} (heap : Heap) (f : σ → Nat → Node → σ × Bool)
    (snapshot : Nat) : Nat → Option Nat → σ → σ × Bool
  | 0, _, acc => (acc, true)
  | _ + 1, none, acc => (acc, true)
  | fuel + 1, some i, acc =>
    match heap i with
    | none => (acc, true)
    | some n =>
      if eligible snapshot n then
        let r := f acc i n
        if r.2 then doForEachIfFrom heap f snapshot fuel n.next r.1
        else (r.1, false)
      else doForEachIfFrom heap f snapshot fuel n.next acc

/-- `doForEachIf`: snapshot `head` and `currentCounter`, then run the loop. -/
def doForEachIf {σ : Type} (s : CallbackList) (f : σ → Nat → Node → σ × Bool)
    (acc : σ) : σ × Bool :=
  doForEachIfFrom s.nodes f s.currentCounter s.nextId s.head acc

/-- `forEachIf` with a `(Callback &)`-shaped pure visitor: stops (returning
false) as soon as the visitor returns false. -/
def forEachIf (s : CallbackList) (p : Nat → Bool) : Bool :=
  (doForEachIf s (fun (u : Unit) _ n => (u, p n.callback)) ()).2

/-- `forEach`: the visitor's return value is discarded (always continue); the
observable effect is the trace of callbacks handed to `func`, in order. -/
def forEachTrace (s : CallbackList) : List Nat :=
  (doForEachIf s (fun (tr : List Nat) _ n => (tr ++ [n.callback], true)) []).1

/-- `operator()`: implemented atop `forEachIf` with the visitor
`callback(args...); return CanContinueInvoking::canContinueInvoking(args...)`.
`canCont` is the value of the policy predicate on the (fixed) argument pack;
the default policy always yields `true`.  Returns the invocation trace and the
underlying `forEachIf` result. -/
def invoke (s : CallbackList) (canCont : Bool) : List Nat × Bool :=
  doForEachIf s (fun (tr : List Nat) _ n => (tr ++ [n.callback], canCont)) []

/-- The node ids that pass the visibility test during a traversal from `cur`
with the given counter snapshot (the nodes any dispatch would hand to its
visitor, had the visitor kept continuing). -/
def visitedIdsFrom (heap : Heap) (snapshot : Nat) : Nat → Option Nat → List Nat
  | 0, _ => []
  | _ + 1, none => []
  | fuel + 1, some i =>
    match heap i with
    | none => []
    | some n =>
      if eligible snapshot n then i :: visitedIdsFrom heap snapshot fuel n.next
      else visitedIdsFrom heap snapshot fuel n.next

/-- The node ids a dispatch over `s` with counter snapshot `snapshot` observes. -/
def visitedIds (s : CallbackList) (snapshot : Nat) : List Nat :=
  visitedIdsFrom s.nodes snapshot s.nextId s.head

/-- `empty()`: `! head`. -/
def listEmpty (s : CallbackList) : Bool :=
  s.head == none

/-- A freshly constructed CallbackList. -/
def emptyList : CallbackList :=
  ⟨fun _ => none, 0, none, none, 0⟩

/-- `ids` is the chain of nodes starting at `cur` whose back pointer is `prev`:
every listed node exists, is alive, links back correctly, and the chain ends in
a null `next`. -/
def isChainFrom (heap : Heap) (prev : Option Nat) : Option Nat → List Nat → Bool
  | none, [] => true
  | none, _ :: _ => false
  | some _, [] => false
  | some c, j :: rest =>
    c == j &&
      (match heap c with
       | none => false
       | some n => n.previous == prev && n.alive && isChainFrom heap (some c) n.next rest)

/-- The quiescent-state invariant of a CallbackList, relative to its spine `ids`
(I1-I7 of the specification, quiescent parts): the list is a well-formed doubly
linked chain from `head`, `tail` is its last node, ids never repeat, ids at or
beyond the allocator are unallocated, every linked node's counter is positive
and at most `currentCounter`, every strongly referenced node is linked, and the
64-bit counter is in range. -/
def listOK (s : CallbackList) (ids : List Nat) : Prop :=
  isChainFrom s.nodes none s.head ids = true ∧
  s.tail = ids.getLast? ∧
  ids.Nodup ∧
  (∀ i, s.nextId ≤ i → s.nodes i = none) ∧
  (∀ i ∈ ids, ∀ n, s.nodes i = some n → 0 < n.counter ∧ n.counter ≤ s.currentCounter) ∧
  (∀ i n, s.nodes i = some n → n.alive = true → i ∈ ids) ∧
  s.currentCounter < counterMod

/-- A well-formed CallbackList: some spine witnesses `listOK`. -/
def WF (s : CallbackList) : Prop := ∃ ids, listOK s ids

/-! ### Primitive heap lemmas -/

theorem updateNode_nodes (s : CallbackList) (i : Nat) (f : Node → Node) (j : Nat) :
    (updateNode s i f).nodes j = if j = i then (s.nodes i).map f else s.nodes j := by
  unfold updateNode setNode
  cases h : s.nodes i with
  | none =>
    by_cases hj : j = i
    · simp [hj, h]
    · simp [hj]
  | some n =>
    by_cases hj : j = i
    · simp [hj, h]
    · simp [hj]

theorem updateNode_head (s : CallbackList) (i : Nat) (f : Node → Node) :
    (updateNode s i f).head = s.head := by
  unfold updateNode setNode; cases s.nodes i <;> rfl

theorem updateNode_tail (s : CallbackList) (i : Nat) (f : Node → Node) :
    (updateNode s i f).tail = s.tail := by
  unfold updateNode setNode; cases s.nodes i <;> rfl

theorem updateNode_nextId (s : CallbackList) (i : Nat) (f : Node → Node) :
    (updateNode s i f).nextId = s.nextId := by
  unfold updateNode setNode; cases s.nodes i <;> rfl

theorem updateNode_currentCounter (s : CallbackList) (i : Nat) (f : Node → Node) :
    (updateNode s i f).currentCounter = s.currentCounter := by
  unfold updateNode setNode; cases s.nodes i <;> rfl

/-! ### Chain congruence, inversion and membership -/

/-- Two heap cells agree on everything `isChainFrom` reads. -/
def sameShape : Option Node → Option Node → Prop
  | some n, some m => n.previous = m.previous ∧ n.next = m.next ∧ n.alive = m.alive
  | none, none => True
  | _, _ => False

theorem sameShape_refl (o : Option Node) : sameShape o o := by
  cases o <;> simp [sameShape]

theorem isChainFrom_congr (heap heap' : Heap)
    (l : List Nat) (prev cur : Option Nat)
    (hs : ∀ j ∈ l, sameShape (heap j) (heap' j)) :
    isChainFrom heap prev cur l = isChainFrom heap' prev cur l := by
  induction l generalizing prev cur with
  | nil => cases cur <;> rfl
  | cons j rest ih =>
    cases cur with
    | none => rfl
    | some c =>
      have hj := hs j (by simp)
      by_cases hcj : c = j
      · subst hcj
        cases hc : heap c with
        | none =>
          cases hc' : heap' c with
          | none => simp [isChainFrom, hc, hc']
          | some m => rw [hc, hc'] at hj; simp [sameShape] at hj
        | some n =>
          cases hc' : heap' c with
          | none => rw [hc, hc'] at hj; simp [sameShape] at hj
          | some m =>
            rw [hc, hc'] at hj
            obtain ⟨h1, h2, h3⟩ := hj
            have hrest : ∀ x ∈ rest, sameShape (heap x) (heap' x) :=
              fun x hx => hs x (by simp [hx])
            simp [isChainFrom, hc, hc', h1, h2, h3, ih (some c) m.next hrest]
      · have hf : (c == j) = false := by simp [hcj]
        simp [isChainFrom, hf]

/-- Inversion of a nonempty chain. -/
theorem isChainFrom_cons (heap : Heap) (prev : Option Nat) (c j : Nat)
    (rest : List Nat)
    (h : isChainFrom heap prev (some c) (j :: rest) = true) :
    c = j ∧ ∃ n, heap j = some n ∧ n.previous = prev ∧ n.alive = true ∧
      isChainFrom heap (some j) n.next rest = true := by
  unfold isChainFrom at h
  by_cases hcj : c = j
  · subst hcj
    cases hc : heap c with
    | none => rw [hc] at h; simp at h
    | some n =>
      rw [hc] at h
      simp only [beq_self_eq_true, Bool.true_and, Bool.and_eq_true, beq_iff_eq] at h
      exact ⟨rfl, n, rfl, h.1.1, h.1.2, h.2⟩
  · have : (c == j) = false := by simp [hcj]
    rw [this] at h; simp at h

theorem isChainFrom_none (heap : Heap) (prev : Option Nat) (l : List Nat)
    (h : isChainFrom heap prev none l = true) : l = [] := by
  cases l with
  | nil => rfl
  | cons a l => simp [isChainFrom] at h

theorem isChainFrom_nil_iff (heap : Heap) (prev : Option Nat) (cur : Option Nat) :
    isChainFrom heap prev cur [] = true ↔ cur = none := by
  cases cur <;> simp [isChainFrom]

/-- The cursor of a chain is its first element. -/
theorem isChainFrom_cur (heap : Heap) (prev cur : Option Nat) (l : List Nat)
    (h : isChainFrom heap prev cur l = true) : cur = l.head? := by
  cases l with
  | nil => cases cur with
    | none => rfl
    | some c => simp [isChainFrom] at h
  | cons j rest =>
    cases cur with
    | none => simp [isChainFrom] at h
    | some c =>
      obtain ⟨rfl, -⟩ := isChainFrom_cons heap prev c j rest h
      rfl

/-- Every member of a chain exists on the heap and is alive. -/
theorem isChainFrom_mem (heap : Heap) (prev cur : Option Nat) (l : List Nat)
    (h : isChainFrom heap prev cur l = true) (i : Nat) (hi : i ∈ l) :
    ∃ n, heap i = some n ∧ n.alive = true := by
  induction l generalizing prev cur with
  | nil => simp at hi
  | cons j rest ih =>
    cases cur with
    | none => simp [isChainFrom] at h
    | some c =>
      obtain ⟨rfl, n, hn, hprev, halive, hrest⟩ := isChainFrom_cons heap prev c j rest h
      rcases List.mem_cons.mp hi with h1 | hi'
      · subst h1; exact ⟨n, hn, halive⟩
      · exact ih _ n.next hrest hi'

/-! ### Traversal lemmas: the dispatch loop along a well-formed chain -/

/-- The visibility test at a node id. -/
def eligibleAt (heap : Heap) (snap : Nat) (i : Nat) : Bool :=
  match heap i with
  | some n => eligible snap n
  | none => false

/-- Early-stopping fold: the specification-side shape of the dispatch loop over
the plain list of (id, node) pairs that pass the visibility test. -/
def stopFold {σ : Type} (f : σ → Nat → Node → σ × Bool) : List (Nat × Node) → σ → σ × Bool
  | [], acc => (acc, true)
  | x :: rest, acc =>
    let r := f acc x.1 x.2
    if r.2 then stopFold f rest r.1 else (r.1, false)

/-- The (id, node) pairs of `l` passing the visibility test, in order. -/
def eligPairs (heap : Heap) (snap : Nat) (l : List Nat) : List (Nat × Node) :=
  l.filterMap (fun i =>
    match heap i with
    | some n => if eligible snap n then some (i, n) else none
    | none => none)

/-- The callbacks of `l` passing the visibility test, in order. -/
def eligCallbacks (heap : Heap) (snap : Nat) (l : List Nat) : List Nat :=
  (eligPairs heap snap l).map (fun x => x.2.callback)

/-- Anything the traversal visits exists on the heap and passes the visibility test. -/
theorem mem_visitedIdsFrom (heap : Heap) (snap : Nat) :
    ∀ fuel cur i, i ∈ visitedIdsFrom heap snap fuel cur →
      ∃ n, heap i = some n ∧ eligible snap n = true := by
  intro fuel
  induction fuel with
  | zero => intro cur i h; simp [visitedIdsFrom] at h
  | succ fuel ih =>
    intro cur i h
    cases cur with
    | none => simp [visitedIdsFrom] at h
    | some c =>
      cases hc : heap c with
      | none => simp [visitedIdsFrom, hc] at h
      | some n =>
        by_cases he : eligible snap n = true
        · simp only [visitedIdsFrom, hc, he, if_true] at h
          rcases List.mem_cons.mp h with h1 | h2
          · subst h1; exact ⟨n, hc, he⟩
          · exact ih n.next i h2
        · simp only [visitedIdsFrom, hc, he, if_false] at h
          exact ih n.next i h

/-- Along a chain, with enough fuel, the traversal visits exactly the members
that pass the visibility test. -/
theorem visitedIdsFrom_chain (heap : Heap) (snap : Nat) (l : List Nat) :
    ∀ prev cur fuel, isChainFrom heap prev cur l = true → l.length ≤ fuel →
      visitedIdsFrom heap snap fuel cur = l.filter (fun i => eligibleAt heap snap i) := by
  induction l with
  | nil =>
    intro prev cur fuel hch _
    have hcur : cur = none := by
      cases cur with
      | none => rfl
      | some c => simp [isChainFrom] at hch
    subst hcur
    cases fuel <;> simp [visitedIdsFrom]
  | cons j rest ih =>
    intro prev cur fuel hch hfuel
    cases cur with
    | none => simp [isChainFrom] at hch
    | some c =>
      obtain ⟨rfl, n, hn, hprev, halive, hrest⟩ := isChainFrom_cons heap prev c j rest hch
      cases fuel with
      | zero => simp at hfuel
      | succ fuel =>
        have hfuel' : rest.length ≤ fuel := by simpa using hfuel
        have hih := ih (some c) n.next fuel hrest hfuel'
        by_cases he : eligible snap n = true
        · simp [visitedIdsFrom, hn, he, hih, List.filter, eligibleAt]
        · have he' : eligible snap n = false := by
            cases h2 : eligible snap n
            · rfl
            · exact absurd h2 he
          simp [visitedIdsFrom, hn, he', hih, List.filter, eligibleAt]

/-- Along a chain, with enough fuel, the dispatch loop is the early-stopping
fold of the visitor over the eligible pairs. -/
theorem doForEachIfFrom_chain {σ : Type} (heap : Heap)
    (f : σ → Nat → Node → σ × Bool) (snap : Nat) (l : List Nat) :
    ∀ prev cur fuel acc, isChainFrom heap prev cur l = true → l.length ≤ fuel →
      doForEachIfFrom heap f snap fuel cur acc = stopFold f (eligPairs heap snap l) acc := by
  induction l with
  | nil =>
    intro prev cur fuel acc hch _
    have hcur : cur = none := by
      cases cur with
      | none => rfl
      | some c => simp [isChainFrom] at hch
    subst hcur
    cases fuel <;> simp [doForEachIfFrom, stopFold, eligPairs]
  | cons j rest ih =>
    intro prev cur fuel acc hch hfuel
    cases cur with
    | none => simp [isChainFrom] at hch
    | some c =>
      obtain ⟨rfl, n, hn, hprev, halive, hrest⟩ := isChainFrom_cons heap prev c j rest hch
      cases fuel with
      | zero => simp at hfuel
      | succ fuel =>
        have hfuel' : rest.length ≤ fuel := by simpa using hfuel
        by_cases he : eligible snap n = true
        · have hpairs : eligPairs heap snap (c :: rest) = (c, n) :: eligPairs heap snap rest := by
            simp [eligPairs, hn, he]
          rw [hpairs]
          simp only [doForEachIfFrom, hn, he, if_true, stopFold]
          by_cases hr : (f acc c n).2 = true
          · simp only [hr, if_true]
            exact ih (some c) n.next fuel (f acc c n).1 hrest hfuel'
          · have hr' : (f acc c n).2 = false := by
              cases h2 : (f acc c n).2
              · rfl
              · exact absurd h2 hr
            simp [hr']
        · have he' : eligible snap n = false := by
            cases h2 : eligible snap n
            · rfl
            · exact absurd h2 he
          have hpairs : eligPairs heap snap (c :: rest) = eligPairs heap snap rest := by
            simp [eligPairs, hn, he']
          rw [hpairs]
          simp only [doForEachIfFrom, hn, he', Bool.false_eq_true, if_false]
          exact ih (some c) n.next fuel acc hrest hfuel'

/-- A nodup list of naturals bounded by `n` has length at most `n`. -/
theorem nodup_bounded_length_le (l : List Nat) (n : Nat) (hnd : l.Nodup)
    (hb : ∀ i ∈ l, i < n) : l.length ≤ n := by
  classical
  have h1 : l.toFinset.card = l.length := List.toFinset_card_of_nodup hnd
  have h2 : l.toFinset ⊆ Finset.range n := by
    intro x hx
    simp only [List.mem_toFinset] at hx
    simpa using hb x hx
  have h3 := Finset.card_le_card h2
  rw [h1, Finset.card_range] at h3
  exact h3

/-! ### getNextCounter: overflow reset and counter assignment -/

theorem counterMod_pos : 0 < counterMod := by norm_num [counterMod]

theorem one_lt_counterMod : 1 < counterMod := by norm_num [counterMod]

/-- Heap cells agreeing on everything but the counter. -/
def sameButCounter : Option Node → Option Node → Prop
  | some n, some m => n.previous = m.previous ∧ n.next = m.next ∧
      n.callback = m.callback ∧ n.alive = m.alive
  | none, none => True
  | _, _ => False

theorem sameButCounter_refl (o : Option Node) : sameButCounter o o := by
  cases o <;> simp [sameButCounter]

theorem sameButCounter_trans {a b c : Option Node}
    (h1 : sameButCounter a b) (h2 : sameButCounter b c) : sameButCounter a c := by
  cases a <;> cases b <;> cases c <;> simp_all [sameButCounter]

theorem sameShape_of_sameButCounter {a b : Option Node}
    (h : sameButCounter a b) : sameShape a b := by
  cases a <;> cases b <;> simp_all [sameButCounter, sameShape]

/-- The overflow walk only changes counters, and none of the list registers. -/
theorem resetCountersFrom_fields : ∀ fuel cur s,
    (resetCountersFrom s fuel cur).currentCounter = s.currentCounter ∧
    (resetCountersFrom s fuel cur).head = s.head ∧
    (resetCountersFrom s fuel cur).tail = s.tail ∧
    (resetCountersFrom s fuel cur).nextId = s.nextId ∧
    (∀ j, sameButCounter ((resetCountersFrom s fuel cur).nodes j) (s.nodes j)) := by
  intro fuel
  induction fuel with
  | zero =>
    intro cur s
    simp [resetCountersFrom, sameButCounter_refl]
  | succ fuel ih =>
    intro cur s
    cases cur with
    | none => simp [resetCountersFrom, sameButCounter_refl]
    | some i =>
      cases hc : s.nodes i with
      | none => simp [resetCountersFrom, hc, sameButCounter_refl]
      | some n =>
        have hrec := ih n.next (setNode s i { n with counter := 1 })
        simp only [resetCountersFrom, hc]
        refine ⟨hrec.1, hrec.2.1, hrec.2.2.1, hrec.2.2.2.1, fun j => ?_⟩
        refine sameButCounter_trans (hrec.2.2.2.2 j) ?_
        by_cases hji : j = i
        · subst hji; simp [setNode, hc, sameButCounter]
        · simp [setNode, hji, sameButCounter_refl]

/-- Along a nodup chain with enough fuel, the overflow walk rewrites exactly the
members' counters to 1 and leaves every other cell alone. -/
theorem resetCountersFrom_chain (l : List Nat) :
    ∀ s prev cur fuel, isChainFrom s.nodes prev cur l = true → l.Nodup → l.length ≤ fuel →
      ∀ j, (resetCountersFrom s fuel cur).nodes j =
        if j ∈ l then (s.nodes j).map (fun n => { n with counter := 1 }) else s.nodes j := by
  induction l with
  | nil =>
    intro s prev cur fuel hch hnd hfuel j
    have hcur : cur = none := by
      cases cur with
      | none => rfl
      | some c => simp [isChainFrom] at hch
    subst hcur
    cases fuel <;> simp [resetCountersFrom]
  | cons c rest ih =>
    intro s prev cur fuel hch hnd hfuel j
    cases cur with
    | none => simp [isChainFrom] at hch
    | some c' =>
      obtain ⟨rfl, n, hn, hprev, halive, hrest⟩ := isChainFrom_cons s.nodes prev c' c rest hch
      cases fuel with
      | zero => simp at hfuel
      | succ fuel =>
        have hfuel' : rest.length ≤ fuel := by simpa using hfuel
        have hnd' : rest.Nodup := (List.nodup_cons.mp hnd).2
        have hcnotin : c' ∉ rest := (List.nodup_cons.mp hnd).1
        have hch1 : isChainFrom (setNode s c' { n with counter := 1 }).nodes
            (some c') n.next rest = true := by
          rw [← isChainFrom_congr s.nodes (setNode s c' { n with counter := 1 }).nodes
            rest (some c') n.next ?_]
          · exact hrest
          · intro x hx
            by_cases hxc : x = c'
            · subst hxc; simp [setNode, hn, sameShape]
            · simp [setNode, hxc, sameShape_refl]
        have hrec := ih (setNode s c' { n with counter := 1 }) (some c') n.next fuel
          hch1 hnd' hfuel' j
        simp only [resetCountersFrom, hn]
        rw [hrec]
        by_cases hjc : j = c'
        · subst hjc
          simp [setNode, hcnotin, hn]
        · have hmem : (j ∈ c' :: rest) = (j ∈ rest) := by
            simp [List.mem_cons, hjc]
          simp [setNode, hjc, hmem]

/-- Bound on the spine length from nodup-ness and allocator freshness. -/
theorem listOK_length_le (s : CallbackList) (ids : List Nat) (h : listOK s ids) :
    ids.length ≤ s.nextId := by
  obtain ⟨hch, htail, hnd, hfresh, hcnt, halive, hcc⟩ := h
  refine nodup_bounded_length_le ids s.nextId hnd ?_
  intro i hi
  obtain ⟨n, hn, -⟩ := isChainFrom_mem s.nodes none s.head ids hch i hi
  by_contra hlt
  have : s.nodes i = none := hfresh i (Nat.le_of_not_lt hlt)
  rw [this] at hn
  exact Option.noConfusion hn

/-- When `currentCounter + 1` does not wrap, `getNextCounter` just increments. -/
theorem getNextCounter_no_overflow (s : CallbackList) (h : s.currentCounter + 1 < counterMod) :
    getNextCounter s = (s.currentCounter + 1, { s with currentCounter := s.currentCounter + 1 }) := by
  unfold getNextCounter
  have hmod : (s.currentCounter + 1) % counterMod = s.currentCounter + 1 := Nat.mod_eq_of_lt h
  simp [hmod]

/-- `getNextCounter` never hands out the removed sentinel 0, and the value it
returns is the re-read `currentCounter` of the resulting state. -/
theorem getNextCounter_fst (s : CallbackList) :
    (getNextCounter s).1 = (getNextCounter s).2.currentCounter ∧
    (getNextCounter s).1 ≠ 0 := by
  by_cases h0 : (s.currentCounter + 1) % counterMod = 0
  · have hcc := (resetCountersFrom_fields s.nextId s.head
      { s with currentCounter := 0 }).1
    simp only [getNextCounter] at hcc ⊢
    constructor
    · simp [h0]
    · simp [h0, hcc, Nat.mod_eq_of_lt one_lt_counterMod]
  · simp [getNextCounter, h0]

end Eventpp

namespace Eventpp

theorem sameShape_symm {a b : Option Node} (h : sameShape a b) : sameShape b a := by
  cases a <;> cases b <;> simp_all [sameShape]

/-- Equation for the overflow branch of `getNextCounter`. -/
theorem getNextCounter_overflow (s : CallbackList)
    (h0 : (s.currentCounter + 1) % counterMod = 0) :
    getNextCounter s =
      (1, { resetCountersFrom { s with currentCounter := 0 } s.nextId s.head
              with currentCounter := 1 }) := by
  have hcc := (resetCountersFrom_fields s.nextId s.head { s with currentCounter := 0 }).1
  simp [getNextCounter, h0, hcc, Nat.mod_eq_of_lt one_lt_counterMod]

/-- `getNextCounter` preserves the list invariant, fixes every list register,
and changes the heap only in the counter fields; the handed-out counter is the
new `currentCounter`. -/
theorem getNextCounter_listOK (s : CallbackList) (ids : List Nat) (h : listOK s ids) :
    listOK (getNextCounter s).2 ids ∧
    (getNextCounter s).2.head = s.head ∧
    (getNextCounter s).2.tail = s.tail ∧
    (getNextCounter s).2.nextId = s.nextId ∧
    (∀ j, sameButCounter ((getNextCounter s).2.nodes j) (s.nodes j)) := by
  have hlen : ids.length ≤ s.nextId := listOK_length_le s ids h
  obtain ⟨hch, htail, hnd, hfresh, hcnt, halivein, hcc⟩ := h
  by_cases h0 : (s.currentCounter + 1) % counterMod = 0
  · rw [getNextCounter_overflow s h0]
    have hch0 : isChainFrom ({ s with currentCounter := 0 } : CallbackList).nodes
        none ({ s with currentCounter := 0 } : CallbackList).head ids = true := hch
    have hchar := resetCountersFrom_chain ids { s with currentCounter := 0 } none
      ({ s with currentCounter := 0 } : CallbackList).head s.nextId hch0 hnd hlen
    have hfields := resetCountersFrom_fields s.nextId s.head { s with currentCounter := 0 }
    have hshape : ∀ j, sameButCounter
        ((resetCountersFrom { s with currentCounter := 0 } s.nextId s.head).nodes j)
        (s.nodes j) := hfields.2.2.2.2
    refine ⟨⟨?_, ?_, hnd, ?_, ?_, ?_, one_lt_counterMod⟩, ?_, ?_, ?_, ?_⟩
    · show isChainFrom _ none _ ids = true
      have hh : (resetCountersFrom { s with currentCounter := 0 } s.nextId s.head).head
          = s.head := hfields.2.1
      rw [show ({ resetCountersFrom { s with currentCounter := 0 } s.nextId s.head
          with currentCounter := 1 } : CallbackList).head
          = (resetCountersFrom { s with currentCounter := 0 } s.nextId s.head).head from rfl, hh]
      rw [← isChainFrom_congr s.nodes _ ids none s.head
        (fun j _ => sameShape_symm (sameShape_of_sameButCounter (hshape j)))]
      exact hch
    · show _ = ids.getLast?
      rw [show ({ resetCountersFrom { s with currentCounter := 0 } s.nextId s.head
          with currentCounter := 1 } : CallbackList).tail
          = (resetCountersFrom { s with currentCounter := 0 } s.nextId s.head).tail from rfl,
        hfields.2.2.1]
      exact htail
    · intro i hi
      have hni : (resetCountersFrom { s with currentCounter := 0 } s.nextId s.head).nextId
          = s.nextId := hfields.2.2.2.1
      rw [show ({ resetCountersFrom { s with currentCounter := 0 } s.nextId s.head
          with currentCounter := 1 } : CallbackList).nextId
          = (resetCountersFrom { s with currentCounter := 0 } s.nextId s.head).nextId from rfl,
        hni] at hi
      show (resetCountersFrom { s with currentCounter := 0 } s.nextId s.head).nodes i = none
      rw [hchar i]
      have hfi : s.nodes i = none := hfresh i hi
      by_cases hmem : i ∈ ids <;> simp [hmem, hfi]
    · intro i hi n hn
      have hn' : (resetCountersFrom { s with currentCounter := 0 } s.nextId s.head).nodes i
          = some n := hn
      rw [hchar i] at hn'
      simp only [hi, if_pos] at hn'
      obtain ⟨m, hm, -⟩ := isChainFrom_mem s.nodes none s.head ids hch i hi
      rw [hm] at hn'
      have hn2 : ({ m with counter := 1 } : Node) = n := by simpa using hn'
      subst hn2
      exact ⟨Nat.one_pos, le_refl 1⟩
    · intro i n hn halive
      have hn' : (resetCountersFrom { s with currentCounter := 0 } s.nextId s.head).nodes i
          = some n := hn
      rw [hchar i] at hn'
      by_cases hmem : i ∈ ids
      · exact hmem
      · simp only [hmem, if_neg, if_false] at hn'
        exact halivein i n hn' halive
    · exact hfields.2.1
    · exact hfields.2.2.1
    · exact hfields.2.2.2.1
    · exact hshape
  · have hlt : s.currentCounter + 1 < counterMod := by
      rcases Nat.lt_or_ge (s.currentCounter + 1) counterMod with hl | hg
      · exact hl
      · exfalso
        have heq : s.currentCounter + 1 = counterMod := le_antisymm (by omega) hg
        rw [heq, Nat.mod_self] at h0
        exact h0 rfl
    rw [getNextCounter_no_overflow s hlt]
    refine ⟨⟨hch, htail, hnd, hfresh, ?_, halivein, hlt⟩, rfl, rfl, rfl,
      fun j => sameButCounter_refl _⟩
    intro i hi n hn
    obtain ⟨h1, h2⟩ := hcnt i hi n hn
    refine ⟨h1, ?_⟩
    show n.counter ≤ s.currentCounter + 1
    omega

end Eventpp

namespace Eventpp

/-! ### Chain surgery: how append, insert and remove rewrite the spine -/

/-- The back pointer of a chain member is its predecessor in the chain (or the
chain's entry back pointer when it is the first member). -/
theorem isChainFrom_prev_mem (heap : Heap) :
    ∀ (A : List Nat) (B : List Nat) (b : Nat) (bn : Node) (prev cur : Option Nat),
      isChainFrom heap prev cur (A ++ b :: B) = true → heap b = some bn →
      (A = [] ∧ bn.previous = prev) ∨ (∃ t ∈ A, bn.previous = some t) := by
  intro A
  induction A with
  | nil =>
    intro B b bn prev cur hch hb
    cases cur with
    | none => simp [isChainFrom] at hch
    | some c =>
      obtain ⟨rfl, n, hn, hp, -, -⟩ := isChainFrom_cons heap prev c b B hch
      rw [hb] at hn
      injection hn with hn2
      subst hn2
      exact Or.inl ⟨rfl, hp⟩
  | cons a A' ih =>
    intro B b bn prev cur hch hb
    cases cur with
    | none => simp [isChainFrom] at hch
    | some c =>
      obtain ⟨rfl, n, hn, hp, -, hrest⟩ := isChainFrom_cons heap prev c a (A' ++ b :: B) hch
      rcases ih B b bn (some c) n.next hrest hb with ⟨hA, hbp⟩ | ⟨t, ht, hbp⟩
      · exact Or.inr ⟨c, by simp, hbp⟩
      · exact Or.inr ⟨t, by simp [ht], hbp⟩

/-- The forward pointer of a chain member is its successor in the chain. -/
theorem isChainFrom_next_eq (heap : Heap) :
    ∀ (A : List Nat) (B : List Nat) (b : Nat) (bn : Node) (prev cur : Option Nat),
      isChainFrom heap prev cur (A ++ b :: B) = true → heap b = some bn →
      bn.next = B.head? := by
  intro A
  induction A with
  | nil =>
    intro B b bn prev cur hch hb
    cases cur with
    | none => simp [isChainFrom] at hch
    | some c =>
      obtain ⟨rfl, n, hn, -, -, hrest⟩ := isChainFrom_cons heap prev c b B hch
      rw [hb] at hn
      injection hn with hn2
      subst hn2
      exact isChainFrom_cur heap (some c) bn.next B hrest
  | cons a A' ih =>
    intro B b bn prev cur hch hb
    cases cur with
    | none => simp [isChainFrom] at hch
    | some c =>
      obtain ⟨rfl, n, hn, -, -, hrest⟩ := isChainFrom_cons heap prev c a (A' ++ b :: B) hch
      exact ih B b bn (some c) n.next hrest hb

/-- Appending at the tail: extending the chain `l` (ending at `t`) with a fresh
node `i` linked as `t.next = i`, `i.previous = t`, `i.next = null`. -/
theorem isChainFrom_snoc (heap heap' : Heap) (l : List Nat) (t i : Nat) (nt : Node)
    (hlast : l.getLast? = some t)
    (hnd : l.Nodup)
    (hinotin : i ∉ l)
    (ht : heap t = some nt)
    (ht' : heap' t = some { nt with next := some i })
    (hother : ∀ x ∈ l, x ≠ t → heap' x = heap x)
    (hni : ∃ m, heap' i = some m ∧ m.previous = some t ∧ m.next = none ∧ m.alive = true) :
    ∀ prev cur, isChainFrom heap prev cur l = true →
      isChainFrom heap' prev cur (l ++ [i]) = true := by
  induction l with
  | nil => simp at hlast
  | cons a l' ih =>
    intro prev cur hch
    cases cur with
    | none => simp [isChainFrom] at hch
    | some c =>
      obtain ⟨rfl, n, hn, hp, ha, hrest⟩ := isChainFrom_cons heap prev c a l' hch
      cases hl' : l' with
      | nil =>
        subst hl'
        have hct : c = t := by simpa using hlast
        subst hct
        rw [hn] at ht
        injection ht with ht2
        subst ht2
        obtain ⟨m, hm, hmp, hmn, hma⟩ := hni
        have hnext : n.next = none := by
          have := isChainFrom_cur heap (some c) n.next [] hrest
          simpa using this
        simp [isChainFrom, ht', hp, hm, hmp, hmn, hma, ha]
      | cons x xs =>
        subst hl'
        have hlast' : (x :: xs).getLast? = some t := by
          rw [← hlast]
          exact (List.getLast?_cons_cons).symm
        have htmem : t ∈ x :: xs := List.mem_of_mem_getLast? (by simp [hlast'])
        have hct : c ≠ t := by
          intro hEq
          subst hEq
          exact (List.nodup_cons.mp hnd).1 htmem
        have hnd' : (x :: xs).Nodup := (List.nodup_cons.mp hnd).2
        have hin' : i ∉ x :: xs := fun hc => hinotin (by simp [hc])
        have hoth' : ∀ y ∈ x :: xs, y ≠ t → heap' y = heap y :=
          fun y hy hyt => hother y (by simp [hy]) hyt
        have hrec := ih hlast' hnd' hin' hoth' (some c) n.next hrest
        have hc' : heap' c = heap c := hother c (by simp) hct
        simp only [List.cons_append, isChainFrom, hc', hn]
        simp [hp, ha]
        exact hrec

end Eventpp

namespace Eventpp

/-- Introduction form for a chain step. -/
theorem isChainFrom_cons_intro (heap : Heap) (prev : Option Nat) (j : Nat) (n : Node)
    (rest : List Nat) (hn : heap j = some n) (hp : n.previous = prev) (ha : n.alive = true)
    (hrest : isChainFrom heap (some j) n.next rest = true) :
    isChainFrom heap prev (some j) (j :: rest) = true := by
  simp [isChainFrom, hn, hp, ha, hrest]

/-- Inserting a fresh node `i` immediately before the member `b` of a chain:
`i.previous = b.previous`, `i.next = b`, the old predecessor of `b` (when any)
gets `next = i`, and `b.previous = i`. -/
theorem isChainFrom_doinsert (heap heap' : Heap) (b i : Nat) (bn mi : Node)
    (hb : heap b = some bn)
    (hmi : heap' i = some mi)
    (hmiprev : mi.previous = bn.previous)
    (hminext : mi.next = some b)
    (hmialive : mi.alive = true)
    (hbw : heap' b = some { bn with previous := some i }) :
    ∀ A B prev cur,
      isChainFrom heap prev cur (A ++ b :: B) = true →
      (A ++ b :: B).Nodup →
      i ∉ A ++ b :: B →
      (∀ p, bn.previous = some p →
        heap' p = (heap p).map (fun m => { m with next := some i })) →
      (∀ x, x ≠ i → x ≠ b → bn.previous ≠ some x → heap' x = heap x) →
      (∀ p, prev = some p → p ∉ A ++ b :: B ∧ p ≠ i) →
      isChainFrom heap' prev (if A.isEmpty then some i else cur) (A ++ i :: b :: B) = true := by
  intro A
  induction A with
  | nil =>
    intro B prev cur hch hnd hni hpw hother hprev
    cases cur with
    | none => simp [isChainFrom] at hch
    | some c =>
      obtain ⟨-, n, hn, hp, ha, hrest⟩ := isChainFrom_cons heap prev c b B hch
      rw [hb] at hn
      have hn2 := Option.some.inj hn
      subst hn2
      have hchB : isChainFrom heap' (some b) bn.next B = true := by
        rw [← isChainFrom_congr heap heap' B (some b) bn.next ?_]
        · exact hrest
        · intro x hx
          have hxb : x ≠ b := by
            intro hEq
            subst hEq
            exact (List.nodup_cons.mp (by simpa using hnd)).1 hx
          have hxi : x ≠ i := by
            intro hEq
            subst hEq
            exact hni (by simp [hx])
          have hxp : bn.previous ≠ some x := by
            intro hc
            rw [hp] at hc
            exact (hprev x hc).1 (by simp [hx])
          rw [hother x hxi hxb hxp]
          exact sameShape_refl _
      refine isChainFrom_cons_intro heap' prev i mi (b :: B) hmi (by rw [hmiprev, hp])
        hmialive ?_
      rw [hminext]
      refine isChainFrom_cons_intro heap' (some i) b { bn with previous := some i } B hbw rfl
        ha ?_
      exact hchB
  | cons a A' ih =>
    intro B prev cur hch hnd hni hpw hother hprev
    cases cur with
    | none => simp [isChainFrom] at hch
    | some c =>
      obtain ⟨rfl, n, hn, hp, ha, hrest⟩ := isChainFrom_cons heap prev c a (A' ++ b :: B) hch
      have hndrest : (A' ++ b :: B).Nodup := (List.nodup_cons.mp hnd).2
      have hcnotin : c ∉ A' ++ b :: B := (List.nodup_cons.mp hnd).1
      have hcb : c ≠ b := by
        intro hEq
        exact hcnotin (by simp [hEq])
      have hci : c ≠ i := by
        intro hEq
        exact hni (by simp [hEq])
      have hni' : i ∉ A' ++ b :: B := by
        intro hc
        exact hni (by simp [hc])
      have hprev' : ∀ p, (some c : Option Nat) = some p → p ∉ A' ++ b :: B ∧ p ≠ i := by
        intro p hpc
        have hp2 : c = p := Option.some.inj hpc
        subst hp2
        exact ⟨hcnotin, hci⟩
      have hrec := ih B (some c) n.next hrest hndrest hni' hpw hother hprev'
      cases hA' : A' with
      | nil =>
        subst hA'
        have hbp : bn.previous = some c := by
          rcases isChainFrom_prev_mem heap [] B b bn (some c) n.next hrest hb with
            ⟨-, h2⟩ | ⟨t, ht, -⟩
          · exact h2
          · simp at ht
        have hc' : heap' c = some { n with next := some i } := by
          have := hpw c hbp
          rw [hn] at this
          simpa using this
        refine isChainFrom_cons_intro heap' prev c { n with next := some i }
          (i :: b :: B) hc' hp ha ?_
        simpa using hrec
      | cons x xs =>
        subst hA'
        have hbp : ∃ t ∈ x :: xs, bn.previous = some t := by
          rcases isChainFrom_prev_mem heap (x :: xs) B b bn (some c) n.next hrest hb with
            ⟨hemp, -⟩ | ⟨t, ht, h2⟩
          · exact absurd hemp (by simp)
          · exact ⟨t, ht, h2⟩
        obtain ⟨t, htmem, hbpt⟩ := hbp
        have hct : bn.previous ≠ some c := by
          rw [hbpt]
          intro hc
          have h3 : t = c := Option.some.inj hc
          subst h3
          rcases List.mem_cons.mp htmem with h4 | h4
          · exact hcnotin (by simp [h4])
          · exact hcnotin (by simp [h4])
        have hc' : heap' c = heap c := hother c hci hcb hct
        refine isChainFrom_cons_intro heap' prev c n (x :: xs ++ i :: b :: B) ?_ hp ha ?_
        · rw [hc']
          exact hn
        · simpa using hrec

end Eventpp

namespace Eventpp

/-- Splicing the member `h` out of a chain: `h`'s successor (if any) gets
`previous = h.previous`, `h`'s predecessor (if any) gets `next = h.next`, and
every other cell is untouched; the spine loses exactly `h`. -/
theorem isChainFrom_doremove (heap heap' : Heap) (h : Nat) (nh : Node)
    (hh : heap h = some nh)
    (hnextw : ∀ j, nh.next = some j →
      heap' j = (heap j).map (fun m => { m with previous := nh.previous }))
    (hprevw : ∀ p, nh.previous = some p →
      heap' p = (heap p).map (fun m => { m with next := nh.next }))
    (hother : ∀ x, x ≠ h → nh.next ≠ some x → nh.previous ≠ some x → heap' x = heap x) :
    ∀ A B prev cur,
      isChainFrom heap prev cur (A ++ h :: B) = true →
      (A ++ h :: B).Nodup →
      (∀ p, prev = some p → p ∉ A ++ h :: B) →
      isChainFrom heap' prev (if A.isEmpty then nh.next else cur) (A ++ B) = true := by
  intro A
  induction A with
  | nil =>
    intro B prev cur hch hnd hprev
    cases cur with
    | none => simp [isChainFrom] at hch
    | some c =>
      obtain ⟨-, n, hn, hp, ha, hrest⟩ := isChainFrom_cons heap prev c h B hch
      rw [hh] at hn
      have hn2 := Option.some.inj hn
      subst hn2
      cases hB : B with
      | nil =>
        subst hB
        have hnone : nh.next = none := by
          have := isChainFrom_cur heap (some h) nh.next [] hrest
          simpa using this
        simp [hnone, isChainFrom]
      | cons j B' =>
        subst hB
        have hnj : nh.next = some j := by
          have := isChainFrom_cur heap (some h) nh.next (j :: B') hrest
          simpa using this
        rw [hnj] at hrest
        obtain ⟨-, nj, hjn, hjp, hja, hjrest⟩ := isChainFrom_cons heap (some h) j j B' hrest
        have hj' : heap' j = some { nj with previous := nh.previous } := by
          have := hnextw j hnj
          rw [hjn] at this
          simpa using this
        have hchB' : isChainFrom heap' (some j) nj.next B' = true := by
          rw [← isChainFrom_congr heap heap' B' (some j) nj.next ?_]
          · exact hjrest
          · intro x hx
            have hndr : (h :: j :: B').Nodup := by simpa using hnd
            have hxh : x ≠ h := by
              intro hEq
              subst hEq
              exact (List.nodup_cons.mp hndr).1 (by simp [hx])
            have hxj : x ≠ j := by
              intro hEq
              subst hEq
              exact (List.nodup_cons.mp (List.nodup_cons.mp hndr).2).1 hx
            have hxn : nh.next ≠ some x := by
              rw [hnj]
              intro hc
              exact hxj (Option.some.inj hc).symm
            have hxp : nh.previous ≠ some x := by
              rw [hp]
              intro hc
              exact hprev x hc (by simp [hx])
            rw [hother x hxh hxn hxp]
            exact sameShape_refl _
        simp only [List.nil_append, List.isEmpty_nil, if_true, hnj]
        exact isChainFrom_cons_intro heap' prev j { nj with previous := nh.previous }
          B' hj' (by rw [hp]) hja hchB'
  | cons a A' ih =>
    intro B prev cur hch hnd hprev
    cases cur with
    | none => simp [isChainFrom] at hch
    | some c =>
      obtain ⟨rfl, n, hn, hp, ha, hrest⟩ := isChainFrom_cons heap prev c a (A' ++ h :: B) hch
      have hndrest : (A' ++ h :: B).Nodup := (List.nodup_cons.mp hnd).2
      have hcnotin : c ∉ A' ++ h :: B := (List.nodup_cons.mp hnd).1
      have hch2 : c ≠ h := by
        intro hEq
        exact hcnotin (by simp [hEq])
      have hprev' : ∀ p, (some c : Option Nat) = some p → p ∉ A' ++ h :: B := by
        intro p hpc
        have hp2 : c = p := Option.some.inj hpc
        subst hp2
        exact hcnotin
      have hrec := ih B (some c) n.next hrest hndrest hprev'
      cases hA' : A' with
      | nil =>
        subst hA'
        have hnch : n.next = some h := by
          have := isChainFrom_cur heap (some c) n.next ([] ++ h :: B) hrest
          simpa using this
        have hhp : nh.previous = some c := by
          rcases isChainFrom_prev_mem heap [] B h nh (some c) n.next hrest hh with
            ⟨-, h2⟩ | ⟨t, ht, -⟩
          · exact h2
          · simp at ht
        have hc' : heap' c = some { n with next := nh.next } := by
          have := hprevw c hhp
          rw [hn] at this
          simpa using this
        refine isChainFrom_cons_intro heap' prev c { n with next := nh.next } B hc' hp ha ?_
        simpa using hrec
      | cons x xs =>
        subst hA'
        have hhp : ∃ t ∈ x :: xs, nh.previous = some t := by
          rcases isChainFrom_prev_mem heap (x :: xs) B h nh (some c) n.next hrest hh with
            ⟨hemp, -⟩ | ⟨t, ht, h2⟩
          · exact absurd hemp (by simp)
          · exact ⟨t, ht, h2⟩
        obtain ⟨t, htmem, hhpt⟩ := hhp
        have hcp : nh.previous ≠ some c := by
          rw [hhpt]
          intro hc
          have h3 : t = c := Option.some.inj hc
          subst h3
          rcases List.mem_cons.mp htmem with h4 | h4
          · exact hcnotin (by simp [h4])
          · exact hcnotin (by simp [h4])
        have hcn : nh.next ≠ some c := by
          have hnext : nh.next = B.head? :=
            isChainFrom_next_eq heap (x :: xs) B h nh (some c) n.next hrest hh
          rw [hnext]
          intro hc
          cases hB : B with
          | nil => rw [hB] at hc; simp at hc
          | cons j B' =>
            rw [hB] at hc
            have h3 : j = c := by simpa using Option.some.inj hc
            subst h3
            exact hcnotin (by simp [hB])
        have hc' : heap' c = heap c := hother c hch2 hcn hcp
        refine isChainFrom_cons_intro heap' prev c n (x :: xs ++ B) ?_ hp ha ?_
        · rw [hc']
          exact hn
        · simpa using hrec

end Eventpp

namespace Eventpp

/-- The linking step of `append` preserves the invariant, extends the spine at
the tail, and creates the expected fresh node. -/
theorem appendLink_spec (q : CallbackList) (cb cnt : Nat) (ids : List Nat)
    (hq : listOK q ids) (hcnt : cnt = q.currentCounter) (hpos : 0 < cnt) :
    (appendLink q cb cnt).1 = q.nextId ∧
    listOK (appendLink q cb cnt).2 (ids ++ [q.nextId]) ∧
    (appendLink q cb cnt).2.currentCounter = q.currentCounter ∧
    (appendLink q cb cnt).2.nextId = q.nextId + 1 ∧
    (∃ m, (appendLink q cb cnt).2.nodes q.nextId = some m ∧ m.callback = cb ∧
      m.counter = cnt ∧ m.next = none ∧ m.alive = true) := by
  obtain ⟨hch, htail, hnd, hfresh, hcnts, halivein, hcc⟩ := hq
  have hfresh_i : q.nodes q.nextId = none := hfresh _ (le_refl _)
  have hinotin : q.nextId ∉ ids := by
    intro hmem
    obtain ⟨n, hn, -⟩ := isChainFrom_mem q.nodes none q.head ids hch _ hmem
    rw [hfresh_i] at hn
    exact Option.noConfusion hn
  have hmemlt : ∀ x ∈ ids, x < q.nextId := by
    intro x hx
    obtain ⟨n, hn, -⟩ := isChainFrom_mem q.nodes none q.head ids hch _ hx
    by_contra hlt
    rw [hfresh x (Nat.le_of_not_lt hlt)] at hn
    exact Option.noConfusion hn
  cases hh : q.head with
  | none =>
    have hids : ids = [] := by
      rw [hh] at hch
      exact isChainFrom_none _ _ _ hch
    subst hids
    have heq : appendLink q cb cnt = (q.nextId, { q with
        nodes := fun j => if j = q.nextId then some ⟨none, none, cb, cnt, true⟩ else q.nodes j,
        nextId := q.nextId + 1, head := some q.nextId, tail := some q.nextId }) := by
      simp only [appendLink, allocNode]
      rw [hh]
    rw [heq]
    refine ⟨rfl, ⟨?_, by simp, by simp, ?_, ?_, ?_, hcc⟩, rfl, rfl, ?_⟩
    · simp [isChainFrom]
    · intro j hj
      have hj2 : q.nextId + 1 ≤ j := hj
      have hji : ¬(j = q.nextId) := by omega
      show (if j = q.nextId then _ else q.nodes j) = none
      rw [if_neg hji]
      exact hfresh j (by omega)
    · intro j hj n hn
      have hji : j = q.nextId := by simpa using hj
      subst hji
      simp only [if_pos rfl] at hn
      have hn2 : (⟨none, none, cb, cnt, true⟩ : Node) = n := Option.some.inj hn
      subst hn2
      exact ⟨hpos, le_of_eq hcnt⟩
    · intro j n hn ha
      by_cases hji : j = q.nextId
      · simp [hji]
      · simp only [hji, if_false] at hn
        exact absurd (halivein j n hn ha) (by simp)
    · exact ⟨⟨none, none, cb, cnt, true⟩, by simp, rfl, rfl, rfl, rfl⟩
  | some h0 =>
    have hidsne : ids ≠ [] := by
      intro hids
      subst hids
      rw [hh] at hch
      simp [isChainFrom] at hch
    obtain ⟨t, ht⟩ : ∃ t, q.tail = some t := by
      cases htt : q.tail with
      | none =>
        rw [htail, List.getLast?_eq_none_iff] at htt
        exact absurd htt hidsne
      | some t => exact ⟨t, rfl⟩
    have hlast : ids.getLast? = some t := by rw [← htail]; exact ht
    have htmem : t ∈ ids := List.mem_of_mem_getLast? (by simp [hlast])
    have hti : t ≠ q.nextId := by
      intro hEq
      rw [hEq] at htmem
      exact hinotin htmem
    obtain ⟨nt, hnt, hntal⟩ := isChainFrom_mem q.nodes none q.head ids hch t htmem
    have heq : appendLink q cb cnt =
        (q.nextId,
          { updateNode
              (updateNode
                ({ q with
                    nodes := fun j => if j = q.nextId then some ⟨none, none, cb, cnt, true⟩
                      else q.nodes j,
                    nextId := q.nextId + 1 })
                q.nextId (fun m => { m with previous := some t }))
              t (fun m => { m with next := some q.nextId })
            with tail := some q.nextId }) := by
      simp only [appendLink, allocNode]
      rw [hh, ht]
    rw [heq]
    set s1 : CallbackList :=
      { q with
          nodes := fun j => if j = q.nextId then some ⟨none, none, cb, cnt, true⟩
            else q.nodes j,
          nextId := q.nextId + 1 } with hs1
    set sA := updateNode s1 q.nextId (fun m => { m with previous := some t }) with hsA0
    set sB := updateNode sA t (fun m => { m with next := some q.nextId }) with hsB0
    have hs1n : ∀ j, s1.nodes j =
        if j = q.nextId then some ⟨none, none, cb, cnt, true⟩ else q.nodes j := by
      intro j; rw [hs1]
    have hsAn : ∀ j, sA.nodes j =
        if j = q.nextId then some ⟨some t, none, cb, cnt, true⟩ else q.nodes j := by
      intro j
      rw [hsA0, updateNode_nodes]
      by_cases hj : j = q.nextId
      · subst hj
        rw [if_pos rfl, if_pos rfl, hs1n, if_pos rfl]
        rfl
      · rw [if_neg hj, if_neg hj, hs1n, if_neg hj]
    have hsBn : ∀ j, sB.nodes j =
        if j = t then some { nt with next := some q.nextId }
        else if j = q.nextId then some ⟨some t, none, cb, cnt, true⟩
        else q.nodes j := by
      intro j
      rw [hsB0, updateNode_nodes]
      by_cases hj : j = t
      · subst hj
        rw [if_pos rfl, if_pos rfl, hsAn, if_neg hti, hnt]
        rfl
      · rw [if_neg hj, if_neg hj, hsAn]
    have hsBhead : sB.head = q.head := by
      rw [hsB0, updateNode_head, hsA0, updateNode_head, hs1]
    have hsBtail : sB.tail = q.tail := by
      rw [hsB0, updateNode_tail, hsA0, updateNode_tail, hs1]
    have hsBnext : sB.nextId = q.nextId + 1 := by
      rw [hsB0, updateNode_nextId, hsA0, updateNode_nextId, hs1]
    have hsBcc : sB.currentCounter = q.currentCounter := by
      rw [hsB0, updateNode_currentCounter, hsA0, updateNode_currentCounter, hs1]
    have hchain : isChainFrom sB.nodes none q.head (ids ++ [q.nextId]) = true := by
      refine isChainFrom_snoc q.nodes sB.nodes ids t q.nextId nt hlast hnd hinotin hnt
        ?_ ?_ ?_ none q.head hch
      · rw [hsBn, if_pos rfl]
      · intro x hx hxt
        rw [hsBn, if_neg hxt, if_neg]
        intro hEq
        rw [hEq] at hx
        exact hinotin hx
      · refine ⟨⟨some t, none, cb, cnt, true⟩, ?_, rfl, rfl, rfl⟩
        rw [hsBn, if_neg (Ne.symm hti), if_pos rfl]
    refine ⟨rfl, ⟨?_, ?_, ?_, ?_, ?_, ?_, ?_⟩, hsBcc, hsBnext, ?_⟩
    · show isChainFrom sB.nodes none sB.head (ids ++ [q.nextId]) = true
      rw [hsBhead, hh]
      rw [hh] at hchain
      exact hchain
    · show some q.nextId = (ids ++ [q.nextId]).getLast?
      rw [List.getLast?_concat]
    · simp [List.nodup_append, hnd, hinotin]
    · intro j hj
      have hj2 : sB.nextId ≤ j := hj
      rw [hsBnext] at hj2
      show sB.nodes j = none
      have hjt : j ≠ t := by
        have := hmemlt t htmem
        omega
      have hji : j ≠ q.nextId := by omega
      rw [hsBn, if_neg hjt, if_neg hji]
      exact hfresh j (by omega)
    · intro j hj n hn
      show 0 < n.counter ∧ n.counter ≤ sB.currentCounter
      rw [hsBcc]
      rcases List.mem_append.mp hj with hjin | hjnew
      · by_cases hjt : j = t
        · subst hjt
          rw [hsBn, if_pos rfl] at hn
          have hn2 : ({ nt with next := some q.nextId } : Node) = n := Option.some.inj hn
          subst hn2
          exact hcnts j htmem nt hnt
        · have hji : j ≠ q.nextId := by
            intro hEq
            rw [hEq] at hjin
            exact hinotin hjin
          rw [hsBn, if_neg hjt, if_neg hji] at hn
          exact hcnts j hjin n hn
      · have hji : j = q.nextId := by simpa using hjnew
        subst hji
        rw [hsBn, if_neg (Ne.symm hti), if_pos rfl] at hn
        have hn2 : (⟨some t, none, cb, cnt, true⟩ : Node) = n := Option.some.inj hn
        subst hn2
        exact ⟨hpos, le_of_eq hcnt⟩
    · intro j n hn ha
      by_cases hjt : j = t
      · subst hjt
        exact List.mem_append.mpr (Or.inl htmem)
      · by_cases hji : j = q.nextId
        · subst hji
          simp
        · rw [hsBn, if_neg hjt, if_neg hji] at hn
          exact List.mem_append.mpr (Or.inl (halivein j n hn ha))
    · rw [hsBcc]
      exact hcc
    · refine ⟨⟨some t, none, cb, cnt, true⟩, ?_, rfl, rfl, rfl, rfl⟩
      show sB.nodes q.nextId = _
      rw [hsBn, if_neg (Ne.symm hti), if_pos rfl]

end Eventpp

namespace Eventpp

/-- The linking step of `prepend` preserves the invariant, extends the spine at
the head, and creates the expected fresh node. -/
theorem prependLink_spec (q : CallbackList) (cb cnt : Nat) (ids : List Nat)
    (hq : listOK q ids) (hcnt : cnt = q.currentCounter) (hpos : 0 < cnt) :
    (prependLink q cb cnt).1 = q.nextId ∧
    listOK (prependLink q cb cnt).2 (q.nextId :: ids) ∧
    (prependLink q cb cnt).2.currentCounter = q.currentCounter ∧
    (prependLink q cb cnt).2.nextId = q.nextId + 1 ∧
    (∃ m, (prependLink q cb cnt).2.nodes q.nextId = some m ∧ m.callback = cb ∧
      m.counter = cnt ∧ m.alive = true) := by
  obtain ⟨hch, htail, hnd, hfresh, hcnts, halivein, hcc⟩ := hq
  have hfresh_i : q.nodes q.nextId = none := hfresh _ (le_refl _)
  have hinotin : q.nextId ∉ ids := by
    intro hmem
    obtain ⟨n, hn, -⟩ := isChainFrom_mem q.nodes none q.head ids hch _ hmem
    rw [hfresh_i] at hn
    exact Option.noConfusion hn
  cases hh : q.head with
  | none =>
    have hids : ids = [] := by
      rw [hh] at hch
      exact isChainFrom_none _ _ _ hch
    subst hids
    have heq : prependLink q cb cnt = (q.nextId, { q with
        nodes := fun j => if j = q.nextId then some ⟨none, none, cb, cnt, true⟩ else q.nodes j,
        nextId := q.nextId + 1, head := some q.nextId, tail := some q.nextId }) := by
      simp only [prependLink, allocNode]
      rw [hh]
    rw [heq]
    refine ⟨rfl, ⟨?_, by simp, by simp, ?_, ?_, ?_, hcc⟩, rfl, rfl, ?_⟩
    · simp [isChainFrom]
    · intro j hj
      have hj2 : q.nextId + 1 ≤ j := hj
      have hji : ¬(j = q.nextId) := by omega
      show (if j = q.nextId then _ else q.nodes j) = none
      rw [if_neg hji]
      exact hfresh j (by omega)
    · intro j hj n hn
      have hji : j = q.nextId := by simpa using hj
      subst hji
      simp only [if_pos rfl] at hn
      have hn2 : (⟨none, none, cb, cnt, true⟩ : Node) = n := Option.some.inj hn
      subst hn2
      exact ⟨hpos, le_of_eq hcnt⟩
    · intro j n hn ha
      by_cases hji : j = q.nextId
      · simp [hji]
      · simp only [hji, if_false] at hn
        exact absurd (halivein j n hn ha) (by simp)
    · exact ⟨⟨none, none, cb, cnt, true⟩, by simp, rfl, rfl, rfl⟩
  | some h0 =>
    have hch' : isChainFrom q.nodes none (some h0) ids = true := by rw [← hh]; exact hch
    obtain ⟨rest, hids⟩ : ∃ rest, ids = h0 :: rest := by
      cases ids with
      | nil => simp [isChainFrom] at hch'
      | cons x xs =>
        obtain ⟨hx, -⟩ := isChainFrom_cons q.nodes none h0 x xs hch'
        exact ⟨xs, by rw [hx]⟩
    subst hids
    obtain ⟨-, nh0, hnh0, hh0p, hh0a, hrest⟩ :=
      isChainFrom_cons q.nodes none h0 h0 rest hch'
    have hh0i : h0 ≠ q.nextId := by
      intro hEq
      rw [hEq, hfresh_i] at hnh0
      exact Option.noConfusion hnh0
    have heq : prependLink q cb cnt =
        (q.nextId,
          { updateNode
              (updateNode
                ({ q with
                    nodes := fun j => if j = q.nextId then some ⟨none, none, cb, cnt, true⟩
                      else q.nodes j,
                    nextId := q.nextId + 1 })
                q.nextId (fun m => { m with next := some h0 }))
              h0 (fun m => { m with previous := some q.nextId })
            with head := some q.nextId }) := by
      simp only [prependLink, allocNode]
      rw [hh]
    rw [heq]
    set sA := updateNode
        ({ q with
            nodes := fun j => if j = q.nextId then some ⟨none, none, cb, cnt, true⟩
              else q.nodes j,
            nextId := q.nextId + 1 })
        q.nextId (fun m => { m with next := some h0 }) with hsA0
    set sB := updateNode sA h0 (fun m => { m with previous := some q.nextId }) with hsB0
    have hsAn : ∀ j, sA.nodes j =
        if j = q.nextId then some ⟨none, some h0, cb, cnt, true⟩ else q.nodes j := by
      intro j
      rw [hsA0, updateNode_nodes]
      by_cases hj : j = q.nextId
      · subst hj
        rw [if_pos rfl, if_pos rfl]
        show ((if q.nextId = q.nextId then some ⟨none, none, cb, cnt, true⟩
          else q.nodes q.nextId).map _) = _
        rw [if_pos rfl]
        rfl
      · rw [if_neg hj, if_neg hj]
        show (if j = q.nextId then some ⟨none, none, cb, cnt, true⟩ else q.nodes j) = q.nodes j
        rw [if_neg hj]
    have hsBn : ∀ j, sB.nodes j =
        if j = h0 then some { nh0 with previous := some q.nextId }
        else if j = q.nextId then some ⟨none, some h0, cb, cnt, true⟩
        else q.nodes j := by
      intro j
      rw [hsB0, updateNode_nodes]
      by_cases hj : j = h0
      · subst hj
        rw [if_pos rfl, if_pos rfl, hsAn, if_neg hh0i, hnh0]
        rfl
      · rw [if_neg hj, if_neg hj, hsAn]
    have hsBtail : sB.tail = q.tail := by
      rw [hsB0, updateNode_tail, hsA0, updateNode_tail]
    have hsBnext : sB.nextId = q.nextId + 1 := by
      rw [hsB0, updateNode_nextId, hsA0, updateNode_nextId]
    have hsBcc : sB.currentCounter = q.currentCounter := by
      rw [hsB0, updateNode_currentCounter, hsA0, updateNode_currentCounter]
    have hrest' : isChainFrom sB.nodes (some h0) nh0.next rest = true := by
      rw [← isChainFrom_congr q.nodes sB.nodes rest (some h0) nh0.next ?_]
      · exact hrest
      · intro x hx
        have hxh0 : x ≠ h0 := by
          intro hEq
          subst hEq
          exact (List.nodup_cons.mp hnd).1 hx
        have hxi : x ≠ q.nextId := by
          intro hEq
          subst hEq
          exact hinotin (by simp [hx])
        rw [hsBn, if_neg hxh0, if_neg hxi]
        exact sameShape_refl _
    have hchain : isChainFrom sB.nodes none (some q.nextId) (q.nextId :: h0 :: rest) = true := by
      refine isChainFrom_cons_intro sB.nodes none q.nextId ⟨none, some h0, cb, cnt, true⟩
        (h0 :: rest) ?_ rfl rfl ?_
      · rw [hsBn, if_neg (Ne.symm hh0i), if_pos rfl]
      · refine isChainFrom_cons_intro sB.nodes (some q.nextId) h0
          { nh0 with previous := some q.nextId } rest ?_ rfl hh0a ?_
        · rw [hsBn, if_pos rfl]
        · exact hrest'
    refine ⟨rfl, ⟨hchain, ?_, ?_, ?_, ?_, ?_, ?_⟩, hsBcc, hsBnext, ?_⟩
    · show sB.tail = (q.nextId :: h0 :: rest).getLast?
      rw [hsBtail, htail]
      rw [List.getLast?_cons_cons]
    · simp only [List.nodup_cons] at hnd ⊢
      refine ⟨?_, hnd⟩
      intro hc
      exact hinotin (by simpa using hc)
    · intro j hj
      have hj2 : sB.nextId ≤ j := hj
      rw [hsBnext] at hj2
      show sB.nodes j = none
      have hjh0 : j ≠ h0 := by
        intro hEq
        subst hEq
        rw [hfresh j (by omega)] at hnh0
        exact Option.noConfusion hnh0
      have hji : j ≠ q.nextId := by omega
      rw [hsBn, if_neg hjh0, if_neg hji]
      exact hfresh j (by omega)
    · intro j hj n hn
      show 0 < n.counter ∧ n.counter ≤ sB.currentCounter
      rw [hsBcc]
      by_cases hjh0 : j = h0
      · subst hjh0
        rw [hsBn, if_pos rfl] at hn
        have hn2 : ({ nh0 with previous := some q.nextId } : Node) = n := Option.some.inj hn
        subst hn2
        exact hcnts j (by simp) nh0 hnh0
      · by_cases hji : j = q.nextId
        · subst hji
          rw [hsBn, if_neg hjh0, if_pos rfl] at hn
          have hn2 : (⟨none, some h0, cb, cnt, true⟩ : Node) = n := Option.some.inj hn
          subst hn2
          exact ⟨hpos, le_of_eq hcnt⟩
        · rw [hsBn, if_neg hjh0, if_neg hji] at hn
          have hjm : j ∈ h0 :: rest := by
            rcases List.mem_cons.mp hj with h1 | h1
            · exact absurd h1 hji
            · exact h1
          exact hcnts j hjm n hn
    · intro j n hn ha
      by_cases hjh0 : j = h0
      · subst hjh0
        simp
      · by_cases hji : j = q.nextId
        · subst hji
          simp
        · rw [hsBn, if_neg hjh0, if_neg hji] at hn
          have := halivein j n hn ha
          simp [this]
    · rw [hsBcc]
      exact hcc
    · refine ⟨⟨none, some h0, cb, cnt, true⟩, ?_, rfl, rfl, rfl⟩
      show sB.nodes q.nextId = _
      rw [hsBn, if_neg (Ne.symm hh0i), if_pos rfl]

end Eventpp

namespace Eventpp

/-- The linking step of `insert` before a live node `b`: preserves the
invariant, splices the fresh node immediately before `b`, never touches
`tail`, promotes the fresh node to `head` exactly when `b` was the head, and
leaves every other cell untouched. -/
theorem insertLink_spec (q : CallbackList) (cb cnt b : Nat) (bn : Node) (ids : List Nat)
    (hq : listOK q ids) (hcnt : cnt = q.currentCounter) (hpos : 0 < cnt)
    (hb : q.nodes b = some bn) (hba : bn.alive = true) :
    ∃ A B, ids = A ++ b :: B ∧
    (insertLink q cb cnt b).1 = q.nextId ∧
    listOK (insertLink q cb cnt b).2 (A ++ q.nextId :: b :: B) ∧
    (insertLink q cb cnt b).2.currentCounter = q.currentCounter ∧
    (insertLink q cb cnt b).2.nextId = q.nextId + 1 ∧
    (insertLink q cb cnt b).2.tail = q.tail ∧
    (insertLink q cb cnt b).2.head = (if q.head = some b then some q.nextId else q.head) ∧
    (insertLink q cb cnt b).2.nodes q.nextId = some ⟨bn.previous, some b, cb, cnt, true⟩ ∧
    (insertLink q cb cnt b).2.nodes b = some { bn with previous := some q.nextId } ∧
    (∀ p, bn.previous = some p →
      (insertLink q cb cnt b).2.nodes p =
        (q.nodes p).map (fun m => { m with next := some q.nextId })) ∧
    (∀ x, x ≠ q.nextId → x ≠ b → bn.previous ≠ some x →
      (insertLink q cb cnt b).2.nodes x = q.nodes x) := by
  obtain ⟨hch, htail, hnd, hfresh, hcnts, halivein, hcc⟩ := hq
  have hbmem : b ∈ ids := halivein b bn hb hba
  obtain ⟨A, B, hAB⟩ := List.append_of_mem hbmem
  subst hAB
  refine ⟨A, B, rfl, ?_⟩
  have hfresh_i : q.nodes q.nextId = none := hfresh _ (le_refl _)
  have hinotin : q.nextId ∉ A ++ b :: B := by
    intro hmem
    obtain ⟨n, hn, -⟩ := isChainFrom_mem q.nodes none q.head _ hch _ hmem
    rw [hfresh_i] at hn
    exact Option.noConfusion hn
  have hmemlt : ∀ x ∈ A ++ b :: B, x < q.nextId := by
    intro x hx
    obtain ⟨n, hn, -⟩ := isChainFrom_mem q.nodes none q.head _ hch _ hx
    by_contra hlt
    rw [hfresh x (Nat.le_of_not_lt hlt)] at hn
    exact Option.noConfusion hn
  have hbi : b ≠ q.nextId := by
    have := hmemlt b (by simp)
    omega
  have hbnotinA : b ∉ A := by
    intro hc
    have := List.disjoint_of_nodup_append hnd hc
    simp at this
  have hpidsA : ∀ p, bn.previous = some p → p ∈ A := by
    intro p hp
    rcases isChainFrom_prev_mem q.nodes A B b bn none q.head hch hb with ⟨-, h2⟩ | ⟨t, ht, h2⟩
    · rw [h2] at hp
      exact Option.noConfusion hp
    · rw [h2] at hp
      have h3 : t = p := Option.some.inj hp
      subst h3
      exact ht
  have hpi : ∀ p, bn.previous = some p → p ≠ q.nextId := by
    intro p hp hEq
    have := hmemlt p (by simp [hpidsA p hp])
    omega
  have hpb : ∀ p, bn.previous = some p → p ≠ b := by
    intro p hp hEq
    subst hEq
    exact hbnotinA (hpidsA p hp)
  have heq : insertLink q cb cnt b =
      (q.nextId,
        let s1 : CallbackList :=
          { q with
              nodes := fun j => if j = q.nextId then some ⟨none, none, cb, cnt, true⟩
                else q.nodes j,
              nextId := q.nextId + 1 }
        let sX := setNode s1 q.nextId ⟨bn.previous, some b, cb, cnt, true⟩
        let sY := match bn.previous with
          | some p => updateNode sX p (fun m => { m with next := some q.nextId })
          | none => sX
        let sZ := updateNode sY b (fun m => { m with previous := some q.nextId })
        if sZ.head = some b then { sZ with head := some q.nextId } else sZ) := by
    simp only [insertLink, allocNode, doInsert]
    rw [if_neg hbi, hb]
    simp
  rw [heq]
  set s1 : CallbackList :=
    { q with
        nodes := fun j => if j = q.nextId then some ⟨none, none, cb, cnt, true⟩
          else q.nodes j,
        nextId := q.nextId + 1 } with hs1
  set sX := setNode s1 q.nextId ⟨bn.previous, some b, cb, cnt, true⟩ with hsX0
  set sY := (match bn.previous with
    | some p => updateNode sX p (fun m => { m with next := some q.nextId })
    | none => sX) with hsY0
  set sZ := updateNode sY b (fun m => { m with previous := some q.nextId }) with hsZ0
  have hsXn : ∀ j, sX.nodes j =
      if j = q.nextId then some ⟨bn.previous, some b, cb, cnt, true⟩ else q.nodes j := by
    intro j
    rw [hsX0]
    show (if j = q.nextId then _ else s1.nodes j) = _
    by_cases hj : j = q.nextId
    · rw [if_pos hj, if_pos hj]
    · rw [if_neg hj, if_neg hj, hs1]
      show (if j = q.nextId then _ else q.nodes j) = q.nodes j
      rw [if_neg hj]
  have hsYn : ∀ j, sY.nodes j =
      if bn.previous = some j then (q.nodes j).map (fun m => { m with next := some q.nextId })
      else sX.nodes j := by
    intro j
    cases hbp : bn.previous with
    | none =>
      rw [hsY0]
      simp only [hbp]
      rw [if_neg]
      intro hc
      exact Option.noConfusion hc
    | some p =>
      rw [hsY0]
      simp only [hbp]
      rw [updateNode_nodes]
      by_cases hj : j = p
      · subst hj
        rw [if_pos rfl, if_pos rfl, hsXn, if_neg (hpi j (by rw [hbp]))]
      · rw [if_neg hj, if_neg]
        intro hc
        exact hj (Option.some.inj hc).symm
  have hsZn : ∀ j, sZ.nodes j =
      if j = b then some { bn with previous := some q.nextId }
      else if j = q.nextId then some ⟨bn.previous, some b, cb, cnt, true⟩
      else if bn.previous = some j then
        (q.nodes j).map (fun m => { m with next := some q.nextId })
      else q.nodes j := by
    intro j
    rw [hsZ0, updateNode_nodes]
    by_cases hj : j = b
    · subst hj
      rw [if_pos rfl, if_pos rfl, hsYn, if_neg, hsXn, if_neg hbi, hb]
      · rfl
      · intro hc
        exact hpb j hc rfl
    · rw [if_neg hj, if_neg hj, hsYn]
      by_cases hji : j = q.nextId
      · subst hji
        rw [if_neg (fun hc => hpi _ hc rfl), hsXn, if_pos rfl, if_pos rfl]
      · rw [if_neg hji]
        by_cases hjp : bn.previous = some j
        · rw [if_pos hjp, if_pos hjp]
        · rw [if_neg hjp, if_neg hjp, hsXn, if_neg hji]
  have hsZhead : sZ.head = q.head := by
    rw [hsZ0, updateNode_head, hsY0]
    cases hbp : bn.previous with
    | none =>
      rw [hsX0]
      rfl
    | some p =>
      rw [updateNode_head, hsX0]
      rfl
  have hsZtail : sZ.tail = q.tail := by
    rw [hsZ0, updateNode_tail, hsY0]
    cases hbp : bn.previous with
    | none =>
      rw [hsX0]
      rfl
    | some p =>
      rw [updateNode_tail, hsX0]
      rfl
  have hsZnext : sZ.nextId = q.nextId + 1 := by
    rw [hsZ0, updateNode_nextId, hsY0]
    cases hbp : bn.previous with
    | none =>
      rw [hsX0]
      rfl
    | some p =>
      rw [updateNode_nextId, hsX0]
      rfl
  have hsZcc : sZ.currentCounter = q.currentCounter := by
    rw [hsZ0, updateNode_currentCounter, hsY0]
    cases hbp : bn.previous with
    | none =>
      rw [hsX0]
      rfl
    | some p =>
      rw [updateNode_currentCounter, hsX0]
      rfl
  have hiff : q.head = some b ↔ A = [] := by
    constructor
    · intro hqh
      cases hA : A with
      | nil => rfl
      | cons a A2 =>
        have hcur := isChainFrom_cur q.nodes none q.head (A ++ b :: B) hch
        rw [hA] at hcur
        simp only [List.cons_append, List.head?_cons] at hcur
        rw [hqh] at hcur
        have hab : b = a := Option.some.inj hcur
        exfalso
        apply hbnotinA
        rw [hA, hab]
        simp
    · intro hA
      subst hA
      have hcur := isChainFrom_cur q.nodes none q.head ([] ++ b :: B) hch
      simpa using hcur
  have hchain : isChainFrom sZ.nodes none (if A.isEmpty then some q.nextId else q.head)
      (A ++ q.nextId :: b :: B) = true := by
    refine isChainFrom_doinsert q.nodes sZ.nodes b q.nextId bn
      ⟨bn.previous, some b, cb, cnt, true⟩ hb ?_ rfl rfl rfl ?_ A B none q.head hch hnd
      hinotin ?_ ?_ ?_
    · rw [hsZn, if_neg (Ne.symm hbi), if_pos rfl]
    · rw [hsZn, if_pos rfl]
    · intro p hp
      rw [hsZn, if_neg (hpb p hp), if_neg (hpi p hp), if_pos hp]
    · intro x hxi hxb hxp
      rw [hsZn, if_neg hxb, if_neg hxi, if_neg hxp]
    · intro p hc
      exact Option.noConfusion hc
  have hmemmap : ∀ x, x ∈ A ++ b :: B → x ∈ A ++ q.nextId :: b :: B := by
    intro x hx
    rcases List.mem_append.mp hx with h1 | h1
    · exact List.mem_append.mpr (Or.inl h1)
    · exact List.mem_append.mpr (Or.inr (by simp [h1]))
  have hndnew : (A ++ q.nextId :: b :: B).Nodup := by
    rw [List.nodup_append] at hnd ⊢
    obtain ⟨hndA, hndbB, hdisj⟩ := hnd
    refine ⟨hndA, ?_, ?_⟩
    · rw [List.nodup_cons]
      refine ⟨?_, hndbB⟩
      intro hc
      exact hinotin (List.mem_append.mpr (Or.inr hc))
    · intro x hxA
      have hx1 := hdisj hxA
      intro hc
      rcases List.mem_cons.mp hc with h2 | h2
      · subst h2
        exact hinotin (List.mem_append.mpr (Or.inl hxA))
      · exact hx1 h2
  have hgoalhead : (if sZ.head = some b then some q.nextId else sZ.head)
      = (if A.isEmpty then some q.nextId else q.head) := by
    rw [hsZhead]
    by_cases hqh : q.head = some b
    · rw [if_pos hqh, if_pos]
      rw [hiff.mp hqh]
      rfl
    · rw [if_neg hqh, if_neg]
      intro hc
      have hA : A = [] := by
        cases hA2 : A with
        | nil => rfl
        | cons a A2 =>
          rw [hA2] at hc
          simp [List.isEmpty] at hc
      exact hqh (hiff.mpr hA)
  by_cases hqh : q.head = some b
  · rw [if_pos (by rw [hsZhead]; exact hqh)]
    have hA : A = [] := hiff.mp hqh
    subst hA
    refine ⟨rfl, ⟨?_, ?_, hndnew, ?_, ?_, ?_, ?_⟩, hsZcc, hsZnext, hsZtail, ?_, ?_, ?_, ?_, ?_⟩
    · show isChainFrom sZ.nodes none (some q.nextId) _ = true
      simpa using hchain
    · show sZ.tail = _
      rw [hsZtail, htail]
      simp
    · intro j hj
      have hj2 : sZ.nextId ≤ j := hj
      rw [hsZnext] at hj2
      show sZ.nodes j = none
      have hjb : j ≠ b := by
        have := hmemlt b (by simp)
        omega
      have hji : j ≠ q.nextId := by omega
      have hjp : bn.previous ≠ some j := fun hc => absurd (hpidsA j hc) (by simp)
      rw [hsZn, if_neg hjb, if_neg hji, if_neg hjp]
      exact hfresh j (by omega)
    · intro j hj n hn
      show 0 < n.counter ∧ n.counter ≤ sZ.currentCounter
      rw [hsZcc]
      by_cases hjb : j = b
      · subst hjb
        rw [hsZn, if_pos rfl] at hn
        have hn2 : ({ bn with previous := some q.nextId } : Node) = n := Option.some.inj hn
        subst hn2
        exact hcnts j (by simp) bn hb
      · by_cases hji : j = q.nextId
        · subst hji
          rw [hsZn, if_neg hjb, if_pos rfl] at hn
          have hn2 : (⟨bn.previous, some b, cb, cnt, true⟩ : Node) = n := Option.some.inj hn
          subst hn2
          exact ⟨hpos, le_of_eq hcnt⟩
        · by_cases hjp : bn.previous = some j
          · exact absurd (hpidsA j hjp) (by simp)
          · rw [hsZn, if_neg hjb, if_neg hji, if_neg hjp] at hn
            have hjm : j ∈ [] ++ b :: B := by
              rcases List.mem_append.mp hj with h1 | h1
              · exact absurd h1 (by simp)
              · rcases List.mem_cons.mp h1 with h2 | h2
                · exact absurd h2 hji
                · simpa using h2
            exact hcnts j hjm n hn
    · intro j n hn ha
      by_cases hjb : j = b
      · subst hjb
        simp
      · by_cases hji : j = q.nextId
        · subst hji
          simp
        · by_cases hjp : bn.previous = some j
          · exact absurd (hpidsA j hjp) (by simp)
          · rw [hsZn, if_neg hjb, if_neg hji, if_neg hjp] at hn
            exact hmemmap j (halivein j n hn ha)
    · rw [hsZcc]
      exact hcc
    · rw [if_pos hqh]
    · rw [hsZn, if_neg (Ne.symm hbi), if_pos rfl]
    · rw [hsZn, if_pos rfl]
    · intro p hp
      rw [hsZn, if_neg (hpb p hp), if_neg (hpi p hp), if_pos hp]
    · intro x hxi hxb hxp
      rw [hsZn, if_neg hxb, if_neg hxi, if_neg hxp]
  · rw [if_neg (by rw [hsZhead]; exact hqh)]
    have hAne : ¬(A.isEmpty = true) := by
      intro hc
      have hA : A = [] := by
        cases hA2 : A with
        | nil => rfl
        | cons a A2 =>
          rw [hA2] at hc
          simp [List.isEmpty] at hc
      exact hqh (hiff.mpr hA)
    refine ⟨rfl, ⟨?_, ?_, hndnew, ?_, ?_, ?_, ?_⟩, hsZcc, hsZnext, hsZtail, ?_, ?_, ?_, ?_, ?_⟩
    · show isChainFrom sZ.nodes none sZ.head _ = true
      rw [hsZhead]
      rw [if_neg hAne] at hchain
      exact hchain
    · show sZ.tail = _
      rw [hsZtail, htail]
      rw [List.getLast?_append, List.getLast?_append, List.getLast?_cons_cons]
    · intro j hj
      have hj2 : sZ.nextId ≤ j := hj
      rw [hsZnext] at hj2
      show sZ.nodes j = none
      have hjb : j ≠ b := by
        have := hmemlt b (by simp)
        omega
      have hji : j ≠ q.nextId := by omega
      have hjp : bn.previous ≠ some j := by
        intro hc
        have := hmemlt j (by simp [hpidsA j hc])
        omega
      rw [hsZn, if_neg hjb, if_neg hji, if_neg hjp]
      exact hfresh j (by omega)
    · intro j hj n hn
      show 0 < n.counter ∧ n.counter ≤ sZ.currentCounter
      rw [hsZcc]
      by_cases hjb : j = b
      · subst hjb
        rw [hsZn, if_pos rfl] at hn
        have hn2 : ({ bn with previous := some q.nextId } : Node) = n := Option.some.inj hn
        subst hn2
        exact hcnts j (by simp) bn hb
      · by_cases hji : j = q.nextId
        · subst hji
          rw [hsZn, if_neg hjb, if_pos rfl] at hn
          have hn2 : (⟨bn.previous, some b, cb, cnt, true⟩ : Node) = n := Option.some.inj hn
          subst hn2
          exact ⟨hpos, le_of_eq hcnt⟩
        · by_cases hjp : bn.previous = some j
          · rw [hsZn, if_neg hjb, if_neg hji, if_pos hjp] at hn
            cases hqj : q.nodes j with
            | none => rw [hqj] at hn; exact Option.noConfusion hn
            | some m =>
              rw [hqj] at hn
              have hn2 : ({ m with next := some q.nextId } : Node) = n := Option.some.inj hn
              subst hn2
              exact hcnts j (by simp [hpidsA j hjp]) m hqj
          · rw [hsZn, if_neg hjb, if_neg hji, if_neg hjp] at hn
            have hjm : j ∈ A ++ b :: B := by
              rcases List.mem_append.mp hj with h1 | h1
              · exact List.mem_append.mpr (Or.inl h1)
              · rcases List.mem_cons.mp h1 with h2 | h2
                · exact absurd h2 hji
                · exact List.mem_append.mpr (Or.inr h2)
            exact hcnts j hjm n hn
    · intro j n hn ha
      by_cases hjb : j = b
      · subst hjb
        exact hmemmap j (by simp)
      · by_cases hji : j = q.nextId
        · subst hji
          exact List.mem_append.mpr (Or.inr (by simp))
        · by_cases hjp : bn.previous = some j
          · exact hmemmap j (by simp [hpidsA j hjp])
          · rw [hsZn, if_neg hjb, if_neg hji, if_neg hjp] at hn
            exact hmemmap j (halivein j n hn ha)
    · rw [hsZcc]
      exact hcc
    · show sZ.head = _
      rw [hsZhead, if_neg hqh]
    · rw [hsZn, if_neg (Ne.symm hbi), if_pos rfl]
    · rw [hsZn, if_pos rfl]
    · intro p hp
      rw [hsZn, if_neg (hpb p hp), if_neg (hpi p hp), if_pos hp]
    · intro x hxi hxb hxp
      rw [hsZn, if_neg hxb, if_neg hxi, if_neg hxp]

end Eventpp

namespace Eventpp

/-- Precise form of the back pointer of a chain member: the last element of the
prefix, or the chain's entry back pointer when the prefix is empty. -/
theorem isChainFrom_prev_eq (heap : Heap) :
    ∀ (A : List Nat) (B : List Nat) (b : Nat) (bn : Node) (prev cur : Option Nat),
      isChainFrom heap prev cur (A ++ b :: B) = true → heap b = some bn →
      bn.previous = A.getLast?.or prev := by
  intro A
  induction A with
  | nil =>
    intro B b bn prev cur hch hb
    cases cur with
    | none => simp [isChainFrom] at hch
    | some c =>
      obtain ⟨rfl, n, hn, hp, -, -⟩ := isChainFrom_cons heap prev c b B hch
      rw [hb] at hn
      have hn2 := Option.some.inj hn
      subst hn2
      simpa using hp
  | cons a A' ih =>
    intro B b bn prev cur hch hb
    cases cur with
    | none => simp [isChainFrom] at hch
    | some c =>
      obtain ⟨rfl, n, hn, hp, -, hrest⟩ := isChainFrom_cons heap prev c a (A' ++ b :: B) hch
      have hrec := ih B b bn (some c) n.next hrest hb
      cases hA' : A' with
      | nil =>
        subst hA'
        simpa using hrec
      | cons x xs =>
        subst hA'
        cases hlx : (x :: xs).getLast? with
        | none =>
          rw [List.getLast?_eq_none_iff] at hlx
          exact absurd hlx (by simp)
        | some t =>
          rw [hlx] at hrec
          rw [List.getLast?_cons_cons, hlx]
          simpa using hrec

theorem nodes_ite_head (c : Prop) [Decidable c] (s : CallbackList) (x : Option Nat) :
    (if c then { s with head := x } else s).nodes = s.nodes := by
  by_cases hc : c <;> simp [hc]

theorem nodes_ite_tail (c : Prop) [Decidable c] (s : CallbackList) (x : Option Nat) :
    (if c then { s with tail := x } else s).nodes = s.nodes := by
  by_cases hc : c <;> simp [hc]

theorem head_ite_tail (c : Prop) [Decidable c] (s : CallbackList) (x : Option Nat) :
    (if c then { s with tail := x } else s).head = s.head := by
  by_cases hc : c <;> simp [hc]

theorem tail_ite_head (c : Prop) [Decidable c] (s : CallbackList) (x : Option Nat) :
    (if c then { s with head := x } else s).tail = s.tail := by
  by_cases hc : c <;> simp [hc]

theorem nextId_ite_head (c : Prop) [Decidable c] (s : CallbackList) (x : Option Nat) :
    (if c then { s with head := x } else s).nextId = s.nextId := by
  by_cases hc : c <;> simp [hc]

theorem nextId_ite_tail (c : Prop) [Decidable c] (s : CallbackList) (x : Option Nat) :
    (if c then { s with tail := x } else s).nextId = s.nextId := by
  by_cases hc : c <;> simp [hc]

theorem cc_ite_head (c : Prop) [Decidable c] (s : CallbackList) (x : Option Nat) :
    (if c then { s with head := x } else s).currentCounter = s.currentCounter := by
  by_cases hc : c <;> simp [hc]

theorem cc_ite_tail (c : Prop) [Decidable c] (s : CallbackList) (x : Option Nat) :
    (if c then { s with tail := x } else s).currentCounter = s.currentCounter := by
  by_cases hc : c <;> simp [hc]

end Eventpp

namespace Eventpp

/-- Heap characterization of `doRemoveNode` when the removed node's neighbours
are distinct from it and from each other. -/
theorem doRemoveNode_nodes (q : CallbackList) (h : Nat) (nh : Node)
    (hh : q.nodes h = some nh)
    (hnh : nh.next ≠ some h) (hph : nh.previous ≠ some h)
    (hnp : ∀ x, nh.next = some x → nh.previous ≠ some x) :
    ∀ x, (doRemoveNode q h).nodes x =
      if x = h then some { nh with counter := 0 }
      else if nh.next = some x then
        (q.nodes x).map (fun m => { m with previous := nh.previous })
      else if nh.previous = some x then
        (q.nodes x).map (fun m => { m with next := nh.next })
      else q.nodes x := by
  intro x
  simp only [doRemoveNode, hh]
  rw [updateNode_nodes, nodes_ite_tail, nodes_ite_head]
  have hw2n : ∀ y,
      ((match nh.previous with
        | some p => updateNode
            (match nh.next with
             | some j => updateNode q j (fun m => { m with previous := nh.previous })
             | none => q)
            p (fun m => { m with next := nh.next })
        | none =>
            (match nh.next with
             | some j => updateNode q j (fun m => { m with previous := nh.previous })
             | none => q)) : CallbackList).nodes y =
      if nh.next = some y then (q.nodes y).map (fun m => { m with previous := nh.previous })
      else if nh.previous = some y then (q.nodes y).map (fun m => { m with next := nh.next })
      else q.nodes y := by
    intro y
    cases hpv : nh.previous with
    | none =>
      simp only
      cases hnx : nh.next with
      | none =>
        simp only
        rw [if_neg (fun hc => Option.noConfusion hc), if_neg (fun hc => Option.noConfusion hc)]
      | some j =>
        simp only
        rw [updateNode_nodes]
        by_cases hyj : y = j
        · subst hyj
          rw [if_pos rfl, if_pos rfl]
        · rw [if_neg hyj, if_neg (fun hc => hyj (Option.some.inj hc).symm),
            if_neg (fun hc => Option.noConfusion hc)]
    | some p =>
      simp only
      cases hnx : nh.next with
      | none =>
        simp only
        rw [updateNode_nodes]
        by_cases hyp : y = p
        · subst hyp
          rw [if_pos rfl, if_neg (fun hc => Option.noConfusion hc), if_pos rfl]
        · rw [if_neg hyp, if_neg (fun hc => Option.noConfusion hc),
            if_neg (fun hc => hyp (Option.some.inj hc).symm)]
      | some j =>
        simp only
        rw [updateNode_nodes]
        have hjp : j ≠ p := by
          intro hEq
          refine hnp j hnx ?_
          rw [hEq]
          exact hpv
        by_cases hyp : y = p
        · subst hyp
          rw [if_pos rfl, updateNode_nodes,
            if_neg (Ne.symm hjp),
            if_neg (fun hc => hjp (Option.some.inj hc)),
            if_pos rfl]
        · rw [if_neg hyp, updateNode_nodes]
          by_cases hyj : y = j
          · subst hyj
            rw [if_pos rfl, if_pos rfl]
          · rw [if_neg hyj, if_neg (fun hc => hyj (Option.some.inj hc).symm),
              if_neg (fun hc => hyp (Option.some.inj hc).symm)]
  by_cases hxh : x = h
  · subst hxh
    rw [if_pos rfl, if_pos rfl, hw2n x,
      if_neg (by intro hc; exact hnh hc),
      if_neg (by intro hc; exact hph hc), hh]
    rfl
  · rw [if_neg hxh, if_neg hxh, hw2n x]

/-- `doRemoveNode` updates `head` exactly when the removed node was the head. -/
theorem doRemoveNode_head (q : CallbackList) (h : Nat) (nh : Node)
    (hh : q.nodes h = some nh) :
    (doRemoveNode q h).head = if q.head = some h then nh.next else q.head := by
  simp only [doRemoveNode, hh]
  rw [updateNode_head, head_ite_tail]
  have hw2h : ∀ (w : CallbackList), w.head = q.head →
      ((if w.head = some h then { w with head := nh.next } else w) : CallbackList).head
        = if q.head = some h then nh.next else q.head := by
    intro w hw
    by_cases hc : w.head = some h
    · rw [if_pos hc]
      rw [hw] at hc
      rw [if_pos hc]
    · rw [if_neg hc]
      rw [hw] at hc ⊢
      rw [if_neg hc]
  apply hw2h
  cases hpv : nh.previous with
  | none =>
    simp only
    cases hnx : nh.next with
    | none => simp only
    | some j => simp only; rw [updateNode_head]
  | some p =>
    simp only
    cases hnx : nh.next with
    | none => simp only; rw [updateNode_head]
    | some j => simp only; rw [updateNode_head, updateNode_head]

/-- `doRemoveNode` updates `tail` exactly when the removed node was the tail. -/
theorem doRemoveNode_tail (q : CallbackList) (h : Nat) (nh : Node)
    (hh : q.nodes h = some nh) :
    (doRemoveNode q h).tail = if q.tail = some h then nh.previous else q.tail := by
  simp only [doRemoveNode, hh]
  rw [updateNode_tail]
  have hmid : ∀ (w : CallbackList), w.tail = q.tail →
      ((if (if w.head = some h then { w with head := nh.next } else w).tail = some h
        then { (if w.head = some h then { w with head := nh.next } else w) with
            tail := nh.previous }
        else (if w.head = some h then { w with head := nh.next } else w)) :
          CallbackList).tail
        = if q.tail = some h then nh.previous else q.tail := by
    intro w hw
    have htl : ((if w.head = some h then { w with head := nh.next } else w) :
        CallbackList).tail = q.tail := by
      rw [tail_ite_head, hw]
    by_cases hc : (if w.head = some h then { w with head := nh.next } else w :
        CallbackList).tail = some h
    · rw [if_pos hc]
      rw [htl] at hc
      rw [if_pos hc]
    · rw [if_neg hc]
      rw [htl] at hc
      rw [if_neg hc, htl]
  apply hmid
  cases hpv : nh.previous with
  | none =>
    simp only
    cases hnx : nh.next with
    | none => simp only
    | some j => simp only; rw [updateNode_tail]
  | some p =>
    simp only
    cases hnx : nh.next with
    | none => simp only; rw [updateNode_tail]
    | some j => simp only; rw [updateNode_tail, updateNode_tail]

/-- `doRemoveNode` leaves the allocator and the counter register alone. -/
theorem doRemoveNode_misc (q : CallbackList) (h : Nat) (nh : Node)
    (hh : q.nodes h = some nh) :
    (doRemoveNode q h).nextId = q.nextId ∧
    (doRemoveNode q h).currentCounter = q.currentCounter := by
  simp only [doRemoveNode, hh]
  constructor
  · rw [updateNode_nextId, nextId_ite_tail, nextId_ite_head]
    cases hpv : nh.previous with
    | none =>
      simp only
      cases hnx : nh.next with
      | none => simp only
      | some j => simp only; rw [updateNode_nextId]
    | some p =>
      simp only
      cases hnx : nh.next with
      | none => simp only; rw [updateNode_nextId]
      | some j => simp only; rw [updateNode_nextId, updateNode_nextId]
  · rw [updateNode_currentCounter, cc_ite_tail, cc_ite_head]
    cases hpv : nh.previous with
    | none =>
      simp only
      cases hnx : nh.next with
      | none => simp only
      | some j => simp only; rw [updateNode_currentCounter]
    | some p =>
      simp only
      cases hnx : nh.next with
      | none => simp only; rw [updateNode_currentCounter]
      | some j => simp only; rw [updateNode_currentCounter, updateNode_currentCounter]

end Eventpp

namespace Eventpp

/-- `remove` on a live node: returns true, splices the node out (fixing the
neighbours and `head`/`tail` when needed), stamps the removed sentinel on its
counter, drops the strong reference, and leaves the node's own
`previous`/`next` pointers unchanged. -/
theorem remove_spec (q : CallbackList) (h : Nat) (nh : Node) (ids : List Nat)
    (hq : listOK q ids) (hh : q.nodes h = some nh) (hha : nh.alive = true) :
    ∃ A B, ids = A ++ h :: B ∧
    (remove q h).1 = true ∧
    listOK (remove q h).2 (A ++ B) ∧
    (remove q h).2.nodes h = some { nh with counter := 0, alive := false } ∧
    (remove q h).2.currentCounter = q.currentCounter ∧
    (remove q h).2.nextId = q.nextId ∧
    (remove q h).2.head = (if q.head = some h then nh.next else q.head) ∧
    (remove q h).2.tail = (if q.tail = some h then nh.previous else q.tail) ∧
    (∀ j, nh.next = some j →
      (remove q h).2.nodes j = (q.nodes j).map (fun m => { m with previous := nh.previous })) ∧
    (∀ p, nh.previous = some p →
      (remove q h).2.nodes p = (q.nodes p).map (fun m => { m with next := nh.next })) ∧
    (∀ x, x ≠ h → nh.next ≠ some x → nh.previous ≠ some x →
      (remove q h).2.nodes x = q.nodes x) := by
  obtain ⟨hch, htail, hnd, hfresh, hcnts, halivein, hcc⟩ := hq
  have hmem : h ∈ ids := halivein h nh hh hha
  obtain ⟨A, B, hAB⟩ := List.append_of_mem hmem
  subst hAB
  refine ⟨A, B, rfl, ?_⟩
  have hnotinA : h ∉ A := by
    intro hc
    have := List.disjoint_of_nodup_append hnd hc
    simp at this
  have hnotinB : h ∉ B := by
    have hndr : (h :: B).Nodup := hnd.of_append_right
    exact (List.nodup_cons.mp hndr).1
  have hnexteq : nh.next = B.head? := isChainFrom_next_eq q.nodes A B h nh none q.head hch hh
  have hpreveq : nh.previous = A.getLast? := by
    have := isChainFrom_prev_eq q.nodes A B h nh none q.head hch hh
    rw [Option.or_none] at this
    exact this
  have hnh : nh.next ≠ some h := by
    rw [hnexteq]
    intro hc
    exact hnotinB (List.mem_of_mem_head? (by simp [hc]))
  have hph : nh.previous ≠ some h := by
    rw [hpreveq]
    intro hc
    exact hnotinA (List.mem_of_mem_getLast? (by simp [hc]))
  have hnp : ∀ x, nh.next = some x → nh.previous ≠ some x := by
    intro x hx hp
    rw [hnexteq] at hx
    rw [hpreveq] at hp
    have hxB : x ∈ B := List.mem_of_mem_head? (by simp [hx])
    have hxA : x ∈ A := List.mem_of_mem_getLast? (by simp [hp])
    have := List.disjoint_of_nodup_append hnd hxA
    simp [hxB] at this
  have hmemlt : ∀ x ∈ A ++ h :: B, x < q.nextId := by
    intro x hx
    obtain ⟨n, hn, -⟩ := isChainFrom_mem q.nodes none q.head _ hch _ hx
    by_contra hlt
    rw [hfresh x (Nat.le_of_not_lt hlt)] at hn
    exact Option.noConfusion hn
  have hlock : lockHandle q h = some h := by simp [lockHandle, hh, hha]
  have heq : remove q h =
      (true, updateNode (doRemoveNode q h) h (fun m => { m with alive := false })) := by
    simp only [remove]
    rw [hlock]
  rw [heq]
  set sR := doRemoveNode q h with hsR0
  set sF := updateNode sR h (fun m => { m with alive := false }) with hsF0
  have hsRn := doRemoveNode_nodes q h nh hh hnh hph hnp
  have hsRh := doRemoveNode_head q h nh hh
  have hsRt := doRemoveNode_tail q h nh hh
  have hsRm := doRemoveNode_misc q h nh hh
  have hsRhnode : sR.nodes h = some { nh with counter := 0 } := by
    rw [hsRn h, if_pos rfl]
  have hsFn : ∀ x, sF.nodes x =
      if x = h then some { nh with counter := 0, alive := false } else sR.nodes x := by
    intro x
    rw [hsF0, updateNode_nodes]
    by_cases hx : x = h
    · subst hx
      rw [if_pos rfl, if_pos rfl, hsRhnode]
      rfl
    · rw [if_neg hx, if_neg hx]
  have hsFh : sF.head = (if q.head = some h then nh.next else q.head) := by
    rw [hsF0, updateNode_head, hsRh]
  have hsFt : sF.tail = (if q.tail = some h then nh.previous else q.tail) := by
    rw [hsF0, updateNode_tail, hsRt]
  have hsFni : sF.nextId = q.nextId := by
    rw [hsF0, updateNode_nextId, hsRm.1]
  have hsFcc : sF.currentCounter = q.currentCounter := by
    rw [hsF0, updateNode_currentCounter, hsRm.2]
  have hnextw : ∀ j, nh.next = some j →
      sF.nodes j = (q.nodes j).map (fun m => { m with previous := nh.previous }) := by
    intro j hj
    have hjh : j ≠ h := by
      intro hEq
      rw [hEq] at hj
      exact hnh hj
    rw [hsFn, if_neg hjh, hsRn, if_neg hjh, if_pos hj]
  have hprevw : ∀ p, nh.previous = some p →
      sF.nodes p = (q.nodes p).map (fun m => { m with next := nh.next }) := by
    intro p hp
    have hph2 : p ≠ h := by
      intro hEq
      rw [hEq] at hp
      exact hph hp
    have hnxp : nh.next ≠ some p := by
      intro hc
      exact hnp p hc hp
    rw [hsFn, if_neg hph2, hsRn, if_neg hph2, if_neg hnxp, if_pos hp]
  have hother : ∀ x, x ≠ h → nh.next ≠ some x → nh.previous ≠ some x →
      sF.nodes x = q.nodes x := by
    intro x hx hnx hpx
    rw [hsFn, if_neg hx, hsRn, if_neg hx, if_neg hnx, if_neg hpx]
  have hchain : isChainFrom sF.nodes none (if A.isEmpty then nh.next else q.head)
      (A ++ B) = true :=
    isChainFrom_doremove q.nodes sF.nodes h nh hh hnextw hprevw hother A B none q.head
      hch hnd (fun p hc => Option.noConfusion hc)
  have hiff : q.head = some h ↔ A = [] := by
    constructor
    · intro hqh
      cases hA : A with
      | nil => rfl
      | cons a A2 =>
        have hcur := isChainFrom_cur q.nodes none q.head (A ++ h :: B) hch
        rw [hA] at hcur
        simp only [List.cons_append, List.head?_cons] at hcur
        rw [hqh] at hcur
        have hab : h = a := Option.some.inj hcur
        exfalso
        apply hnotinA
        rw [hA, hab]
        simp
    · intro hA
      subst hA
      have hcur := isChainFrom_cur q.nodes none q.head ([] ++ h :: B) hch
      simpa using hcur
  have hmemnew : ∀ x, x ∈ A ++ B → x ∈ A ++ h :: B := by
    intro x hx
    rcases List.mem_append.mp hx with h1 | h1
    · exact List.mem_append.mpr (Or.inl h1)
    · exact List.mem_append.mpr (Or.inr (by simp [h1]))
  have hxnoth : ∀ x, x ∈ A ++ B → x ≠ h := by
    intro x hx hEq
    subst hEq
    rcases List.mem_append.mp hx with h1 | h1
    · exact hnotinA h1
    · exact hnotinB h1
  refine ⟨rfl, ⟨?_, ?_, ?_, ?_, ?_, ?_, ?_⟩, ?_, hsFcc, hsFni, hsFh, hsFt,
    hnextw, hprevw, hother⟩
  · show isChainFrom sF.nodes none sF.head (A ++ B) = true
    rw [hsFh]
    by_cases hqh : q.head = some h
    · rw [if_pos hqh]
      have hA : A = [] := hiff.mp hqh
      subst hA
      simpa using hchain
    · rw [if_neg hqh]
      have hA : ¬(A.isEmpty = true) := by
        intro hc
        have hA2 : A = [] := by
          cases hA3 : A with
          | nil => rfl
          | cons a A2 =>
            rw [hA3] at hc
            simp [List.isEmpty] at hc
        exact hqh (hiff.mpr hA2)
      rw [if_neg hA] at hchain
      exact hchain
  · show sF.tail = (A ++ B).getLast?
    rw [hsFt, htail]
    cases hB : B with
    | nil =>
      have hql : (A ++ h :: []).getLast? = some h := by
        rw [List.getLast?_append]
        rfl
      rw [hql, if_pos rfl, hpreveq]
      simp
    | cons j B2 =>
      obtain ⟨t, htl⟩ : ∃ t, (j :: B2).getLast? = some t := by
        cases htl2 : (j :: B2).getLast? with
        | none =>
          rw [List.getLast?_eq_none_iff] at htl2
          exact absurd htl2 (by simp)
        | some t => exact ⟨t, rfl⟩
      have htB : t ∈ j :: B2 := List.mem_of_mem_getLast? (by simp [htl])
      have hth : t ≠ h := by
        intro hEq
        subst hEq
        rw [hB] at hnotinB
        exact hnotinB htB
      have hql : (A ++ h :: j :: B2).getLast? = some t := by
        rw [List.getLast?_append, List.getLast?_cons_cons, htl]
        rfl
      rw [hql, if_neg (by intro hc; exact hth (Option.some.inj hc))]
      rw [List.getLast?_append, htl]
      rfl
  · exact hnd.sublist ((List.sublist_cons_self h B).append_left A)
  · intro x hx
    have hx2 : sF.nextId ≤ x := hx
    rw [hsFni] at hx2
    have hxh : x ≠ h := by
      have := hmemlt h (by simp)
      omega
    show sF.nodes x = none
    rw [hsFn, if_neg hxh, hsRn, if_neg hxh]
    have hqx : q.nodes x = none := hfresh x hx2
    by_cases h2 : nh.next = some x
    · rw [if_pos h2, hqx]
      rfl
    · rw [if_neg h2]
      by_cases h3 : nh.previous = some x
      · rw [if_pos h3, hqx]
        rfl
      · rw [if_neg h3]
        exact hqx
  · intro x hx n hn
    show 0 < n.counter ∧ n.counter ≤ sF.currentCounter
    rw [hsFcc]
    have hxh : x ≠ h := hxnoth x hx
    rw [hsFn, if_neg hxh, hsRn, if_neg hxh] at hn
    have hxmem : x ∈ A ++ h :: B := hmemnew x hx
    by_cases h2 : nh.next = some x
    · rw [if_pos h2] at hn
      cases hqx : q.nodes x with
      | none => rw [hqx] at hn; exact Option.noConfusion hn
      | some m =>
        rw [hqx] at hn
        have hn2 : ({ m with previous := nh.previous } : Node) = n := Option.some.inj hn
        subst hn2
        exact hcnts x hxmem m hqx
    · rw [if_neg h2] at hn
      by_cases h3 : nh.previous = some x
      · rw [if_pos h3] at hn
        cases hqx : q.nodes x with
        | none => rw [hqx] at hn; exact Option.noConfusion hn
        | some m =>
          rw [hqx] at hn
          have hn2 : ({ m with next := nh.next } : Node) = n := Option.some.inj hn
          subst hn2
          exact hcnts x hxmem m hqx
      · rw [if_neg h3] at hn
        exact hcnts x hxmem n hn
  · intro x n hn ha
    by_cases hxh : x = h
    · subst hxh
      rw [hsFn, if_pos rfl] at hn
      have hn2 : ({ nh with counter := 0, alive := false } : Node) = n := Option.some.inj hn
      rw [← hn2] at ha
      simp at ha
    · rw [hsFn, if_neg hxh, hsRn, if_neg hxh] at hn
      have hq2 : ∃ m, q.nodes x = some m ∧ m.alive = n.alive := by
        by_cases h2 : nh.next = some x
        · rw [if_pos h2] at hn
          cases hqx : q.nodes x with
          | none => rw [hqx] at hn; exact Option.noConfusion hn
          | some m =>
            rw [hqx] at hn
            have hn2 : ({ m with previous := nh.previous } : Node) = n := Option.some.inj hn
            exact ⟨m, rfl, by rw [← hn2]⟩
        · rw [if_neg h2] at hn
          by_cases h3 : nh.previous = some x
          · rw [if_pos h3] at hn
            cases hqx : q.nodes x with
            | none => rw [hqx] at hn; exact Option.noConfusion hn
            | some m =>
              rw [hqx] at hn
              have hn2 : ({ m with next := nh.next } : Node) = n := Option.some.inj hn
              exact ⟨m, rfl, by rw [← hn2]⟩
          · rw [if_neg h3] at hn
            exact ⟨n, hn, rfl⟩
      obtain ⟨m, hm, hma⟩ := hq2
      have hxmem : x ∈ A ++ h :: B := halivein x m hm (by rw [hma, ha])
      rcases List.mem_append.mp hxmem with h1 | h1
      · exact List.mem_append.mpr (Or.inl h1)
      · rcases List.mem_cons.mp h1 with h2 | h2
        · exact absurd h2 hxh
        · exact List.mem_append.mpr (Or.inr h2)
  · rw [hsFcc]
    exact hcc
  · rw [hsFn, if_pos rfl]

end Eventpp

namespace Eventpp

/-- Inversion of a successful Handle upgrade. -/
theorem lockHandle_some_inv (s : CallbackList) (h i : Nat)
    (hl : lockHandle s h = some i) :
    i = h ∧ ∃ n, s.nodes h = some n ∧ n.alive = true := by
  cases hn : s.nodes h with
  | none => simp [lockHandle, hn] at hl
  | some n =>
    simp only [lockHandle, hn] at hl
    by_cases ha : n.alive = true
    · rw [if_pos ha] at hl
      exact ⟨(Option.some.inj hl).symm, n, rfl, ha⟩
    · rw [if_neg ha] at hl
      exact Option.noConfusion hl

/-- A node whose counter exceeds the snapshot is invisible to the dispatch. -/
theorem not_visited_of_counter_gt (s' : CallbackList) (i c : Nat) (m : Node)
    (hm : s'.nodes i = some m) (hgt : c < m.counter) : i ∉ visitedIds s' c := by
  intro hc
  obtain ⟨n, hn, he⟩ := mem_visitedIdsFrom s'.nodes c s'.nextId s'.head i hc
  rw [hm] at hn
  have hmn : m = n := Option.some.inj hn
  subst hmn
  simp only [eligible, Bool.and_eq_true, bne_iff_ne, ne_eq, decide_eq_true_eq] at he
  omega

/-- A node carrying the removed sentinel is invisible to the dispatch. -/
theorem not_visited_of_removed (s' : CallbackList) (i : Nat) (m : Node)
    (hm : s'.nodes i = some m) (h0 : m.counter = 0) : ∀ c, i ∉ visitedIds s' c := by
  intro c hc
  obtain ⟨n, hn, he⟩ := mem_visitedIdsFrom s'.nodes c s'.nextId s'.head i hc
  rw [hm] at hn
  have hmn : m = n := Option.some.inj hn
  subst hmn
  simp only [eligible, Bool.and_eq_true, bne_iff_ne, ne_eq, decide_eq_true_eq] at he
  exact he.1 h0

/-- The instrumented `forEachIf`: same loop, with the sequence of callbacks the
visitor is applied to recorded alongside the boolean result. -/
def forEachIfTrace (s : CallbackList) (p : Nat → Bool) : List Nat × Bool :=
  doForEachIf s (fun (tr : List Nat) _ n => (tr ++ [n.callback], p n.callback)) []

/-- stopFold with a visitor that always continues is a map. -/
theorem stopFold_always (pairs : List (Nat × Node)) :
    ∀ acc : List Nat,
      stopFold (fun tr _ n => (tr ++ [n.callback], true)) pairs acc
        = (acc ++ pairs.map (fun x => x.2.callback), true) := by
  induction pairs with
  | nil => intro acc; simp [stopFold]
  | cons x rest ih =>
    intro acc
    simp only [stopFold, if_pos rfl]
    rw [ih]
    simp

/-- stopFold with a visitor that always stops visits only the first pair. -/
theorem stopFold_never (pairs : List (Nat × Node)) (acc : List Nat) :
    stopFold (fun tr _ n => (tr ++ [n.callback], false)) pairs acc
      = (acc ++ (pairs.map (fun x => x.2.callback)).take 1,
         pairs.isEmpty) := by
  cases pairs with
  | nil => simp [stopFold]
  | cons x rest => simp [stopFold]

/-- stopFold with a pure predicate visitor: the visited callbacks are the
passing prefix plus the first failing one, and the result is whether every
eligible callback passes. -/
theorem stopFold_pred (p : Nat → Bool) (pairs : List (Nat × Node)) :
    ∀ acc : List Nat,
      stopFold (fun tr _ n => (tr ++ [n.callback], p n.callback)) pairs acc
        = (acc ++ (pairs.map (fun x => x.2.callback)).takeWhile p
             ++ ((pairs.map (fun x => x.2.callback)).dropWhile p).take 1,
           (pairs.map (fun x => x.2.callback)).all p) := by
  induction pairs with
  | nil => intro acc; simp [stopFold]
  | cons x rest ih =>
    intro acc
    by_cases hp : p x.2.callback = true
    · simp only [stopFold, hp, if_pos rfl]
      rw [ih]
      simp [List.takeWhile_cons, List.dropWhile_cons, hp]
    · have hp' : p x.2.callback = false := by
        cases h2 : p x.2.callback
        · rfl
        · exact absurd h2 hp
      simp only [stopFold, hp']
      simp [List.takeWhile_cons, List.dropWhile_cons, hp', List.all_cons]

/-- stopFold with a state-free predicate visitor computes `List.all`. -/
theorem stopFold_unit (p : Nat → Bool) (pairs : List (Nat × Node)) :
    stopFold (fun (u : Unit) _ n => (u, p n.callback)) pairs ()
      = ((), (pairs.map (fun x => x.2.callback)).all p) := by
  induction pairs with
  | nil => simp [stopFold]
  | cons x rest ih =>
    by_cases hp : p x.2.callback = true
    · simp only [stopFold, hp, if_pos rfl]
      rw [ih]
      simp [hp]
    · have hp' : p x.2.callback = false := by
        cases h2 : p x.2.callback
        · rfl
        · exact absurd h2 hp
      simp [stopFold, hp', List.all_cons]

/-- The bridge from the dispatch wrappers to the eligible-callback list of a
well-formed state. -/
theorem dispatch_eq_stopFold {σ : Type} (s : CallbackList) (ids : List Nat)
    (hOK : listOK s ids) (f : σ → Nat → Node → σ × Bool) (acc : σ) :
    doForEachIf s f acc = stopFold f (eligPairs s.nodes s.currentCounter ids) acc := by
  have hlen := listOK_length_le s ids hOK
  exact doForEachIfFrom_chain s.nodes f s.currentCounter ids none s.head s.nextId acc
    hOK.1 hlen

end Eventpp

namespace Eventpp

theorem listOK_emptyList : listOK emptyList [] := by
  refine ⟨rfl, rfl, List.nodup_nil, fun i _ => rfl, ?_, ?_, ?_⟩
  · intro i hi
    simp at hi
  · intro i n hn
    exact Option.noConfusion hn
  · exact counterMod_pos

theorem listOK_seeded (x : Nat) (hx : x < counterMod) :
    listOK { emptyList with currentCounter := x } [] := by
  refine ⟨rfl, rfl, List.nodup_nil, fun i _ => rfl, ?_, ?_, hx⟩
  · intro i hi
    simp at hi
  · intro i n hn
    exact Option.noConfusion hn

/-- `head`, `tail` and `empty()` agree on emptiness at a quiescent point. -/
theorem listOK_empty_iff (s : CallbackList) (ids : List Nat) (hOK : listOK s ids) :
    (s.head = none ↔ s.tail = none) ∧ (s.head = none ↔ listEmpty s = true) ∧
    (s.head = none ↔ ids = []) := by
  obtain ⟨hch, htail, -, -, -, -, -⟩ := hOK
  have hhead : s.head = ids.head? := isChainFrom_cur s.nodes none s.head ids hch
  have h1 : s.head = none ↔ ids = [] := by
    rw [hhead]
    exact List.head?_eq_none_iff
  have h2 : s.tail = none ↔ ids = [] := by
    rw [htail]
    exact List.getLast?_eq_none_iff
  refine ⟨by rw [h1, h2], ?_, h1⟩
  simp [listEmpty, h1]

theorem WF_append (s : CallbackList) (cb : Nat) (hWF : WF s) : WF (append s cb).2 := by
  obtain ⟨ids, hOK⟩ := hWF
  have hg := getNextCounter_listOK s ids hOK
  obtain ⟨hfst, hne⟩ := getNextCounter_fst s
  have hspec := appendLink_spec (getNextCounter s).2 cb (getNextCounter s).1 ids hg.1
    hfst (Nat.pos_of_ne_zero hne)
  exact ⟨ids ++ [(getNextCounter s).2.nextId], hspec.2.1⟩

theorem WF_prepend (s : CallbackList) (cb : Nat) (hWF : WF s) : WF (prepend s cb).2 := by
  obtain ⟨ids, hOK⟩ := hWF
  have hg := getNextCounter_listOK s ids hOK
  obtain ⟨hfst, hne⟩ := getNextCounter_fst s
  have hspec := prependLink_spec (getNextCounter s).2 cb (getNextCounter s).1 ids hg.1
    hfst (Nat.pos_of_ne_zero hne)
  exact ⟨(getNextCounter s).2.nextId :: ids, hspec.2.1⟩

theorem insert_stale_eq (s : CallbackList) (cb before : Nat)
    (hstale : lockHandle s before = none) : insert s cb before = append s cb := by
  simp only [insert]
  rw [hstale]

theorem insert_live_eq (s : CallbackList) (cb before b : Nat)
    (hlive : lockHandle s before = some b) :
    insert s cb before = insertLink (getNextCounter s).2 cb (getNextCounter s).1 b := by
  simp only [insert]
  rw [hlive]

theorem remove_stale_eq (s : CallbackList) (h : Nat)
    (hstale : lockHandle s h = none) : remove s h = (false, s) := by
  simp only [remove]
  rw [hstale]

theorem WF_insert (s : CallbackList) (cb before : Nat) (hWF : WF s) :
    WF (insert s cb before).2 := by
  cases hlock : lockHandle s before with
  | none =>
    rw [insert_stale_eq s cb before hlock]
    exact WF_append s cb hWF
  | some b =>
    obtain ⟨rfl, n, hn, ha⟩ := lockHandle_some_inv s before b hlock
    rw [insert_live_eq s cb b b hlock]
    obtain ⟨ids, hOK⟩ := hWF
    have hg := getNextCounter_listOK s ids hOK
    obtain ⟨hfst, hne⟩ := getNextCounter_fst s
    obtain ⟨n2, hn2, ha2⟩ : ∃ n2, (getNextCounter s).2.nodes b = some n2 ∧ n2.alive = true := by
      have hsh := hg.2.2.2.2 b
      cases hq : (getNextCounter s).2.nodes b with
      | none =>
        rw [hq, hn] at hsh
        simp [sameButCounter] at hsh
      | some n2 =>
        rw [hq, hn] at hsh
        obtain ⟨-, -, -, h4⟩ := hsh
        exact ⟨n2, rfl, by rw [h4, ha]⟩
    obtain ⟨A, B, -, -, hOK2, -⟩ :=
      insertLink_spec (getNextCounter s).2 cb (getNextCounter s).1 b n2 ids hg.1
        hfst (Nat.pos_of_ne_zero hne) hn2 ha2
    exact ⟨A ++ (getNextCounter s).2.nextId :: b :: B, hOK2⟩

theorem WF_remove (s : CallbackList) (h : Nat) (hWF : WF s) : WF (remove s h).2 := by
  cases hlock : lockHandle s h with
  | none =>
    rw [remove_stale_eq s h hlock]
    exact hWF
  | some i =>
    obtain ⟨rfl, nh, hn, ha⟩ := lockHandle_some_inv s h i hlock
    obtain ⟨ids, hOK⟩ := hWF
    obtain ⟨A, B, -, -, hOK2, -⟩ := remove_spec s i nh ids hOK hn ha
    exact ⟨A ++ B, hOK2⟩

end Eventpp

namespace Eventpp

theorem updateNode_isSome (s : CallbackList) (i : Nat) (f : Node → Node) (j : Nat)
    (hj : ∃ n, s.nodes j = some n) : ∃ n, (updateNode s i f).nodes j = some n := by
  obtain ⟨n, hn⟩ := hj
  rw [updateNode_nodes]
  by_cases hji : j = i
  · subst hji
    rw [if_pos rfl, hn]
    exact ⟨f n, rfl⟩
  · rw [if_neg hji]
    exact ⟨n, hn⟩

/-- After `remove`, the node's cell survives on the heap (for iterators still
holding it) but its strong reference is gone, so Handles can no longer lock it. -/
theorem remove_kills (s : CallbackList) (h : Nat) (nh : Node)
    (hh : s.nodes h = some nh) (hha : nh.alive = true) :
    ∃ m, (remove s h).2.nodes h = some m ∧ m.alive = false := by
  have hlock : lockHandle s h = some h := by simp [lockHandle, hh, hha]
  have heq : remove s h =
      (true, updateNode (doRemoveNode s h) h (fun m => { m with alive := false })) := by
    simp only [remove]
    rw [hlock]
  rw [heq]
  have hex : ∃ k, (doRemoveNode s h).nodes h = some k := by
    simp only [doRemoveNode, hh]
    apply updateNode_isSome
    rw [nodes_ite_tail, nodes_ite_head]
    cases hpv : nh.previous with
    | none =>
      simp only
      cases hnx : nh.next with
      | none => exact ⟨nh, hh⟩
      | some j =>
        simp only
        exact updateNode_isSome _ _ _ _ ⟨nh, hh⟩
    | some p =>
      simp only
      cases hnx : nh.next with
      | none =>
        simp only
        exact updateNode_isSome _ _ _ _ ⟨nh, hh⟩
      | some j =>
        simp only
        exact updateNode_isSome _ _ _ _ (updateNode_isSome _ _ _ _ ⟨nh, hh⟩)
  obtain ⟨k, hk⟩ := hex
  refine ⟨{ k with alive := false }, ?_, rfl⟩
  rw [updateNode_nodes, if_pos rfl, hk]
  rfl

/-- C3: `getNextCounter` never returns the removed sentinel 0.  On wrap it
rewrites every linked node's counter to 1 and re-reads `currentCounter = 1`;
seeding the counter to max-1 and appending twice (the second append triggers
the reset), invoking fires both callbacks, first A then B. -/
theorem C3_counter_overflow_reset (s : CallbackList) (ids : List Nat) (hOK : listOK s ids) :
    (getNextCounter s).1 ≠ 0 ∧
    ((s.currentCounter + 1) % counterMod = 0 →
      (∀ i ∈ ids, ∀ n, (getNextCounter s).2.nodes i = some n → n.counter = 1) ∧
      (getNextCounter s).2.currentCounter = 1 ∧ (getNextCounter s).1 = 1) ∧
    (invoke (append (append { emptyList with currentCounter := counterMod - 2 } 10).2 20).2
      true).1 = [10, 20] := by
  refine ⟨(getNextCounter_fst s).2, ?_, by decide⟩
  intro h0
  have hlen := listOK_length_le s ids hOK
  have hch0 : isChainFrom ({ s with currentCounter := 0 } : CallbackList).nodes
      none ({ s with currentCounter := 0 } : CallbackList).head ids = true := hOK.1
  have hchar := resetCountersFrom_chain ids { s with currentCounter := 0 } none
    ({ s with currentCounter := 0 } : CallbackList).head s.nextId hch0 hOK.2.2.1 hlen
  rw [getNextCounter_overflow s h0]
  refine ⟨?_, rfl, rfl⟩
  intro i hi n hn
  have hn2 : (resetCountersFrom { s with currentCounter := 0 } s.nextId s.head).nodes i
      = some n := hn
  rw [hchar i, if_pos hi] at hn2
  obtain ⟨m, hm, -⟩ := isChainFrom_mem s.nodes none s.head ids hOK.1 i hi
  rw [hm] at hn2
  have hn3 : ({ m with counter := 1 } : Node) = n := Option.some.inj hn2
  rw [← hn3]

/-- Witness for C3 at a concrete overflowing state with one linked node. -/
theorem C3_witness :
    listOK (⟨fun j => if j = 0 then some ⟨none, none, 99, 5, true⟩ else none,
      1, some 0, some 0, counterMod - 1⟩ : CallbackList) [0] ∧
    (getNextCounter (⟨fun j => if j = 0 then some ⟨none, none, 99, 5, true⟩ else none,
      1, some 0, some 0, counterMod - 1⟩ : CallbackList)).1 ≠ 0 := by
  have hOK : listOK (⟨fun j => if j = 0 then some ⟨none, none, 99, 5, true⟩ else none,
      1, some 0, some 0, counterMod - 1⟩ : CallbackList) [0] := by
    refine ⟨by decide, by decide, by decide, ?_, ?_, ?_, by norm_num [counterMod]⟩
    · intro i hi
      have hi2 : 1 ≤ i := hi
      show (if i = 0 then _ else none) = none
      rw [if_neg (by omega)]
    · intro i hi n hn
      have h0 : i = 0 := by simpa using hi
      subst h0
      have hn2 : (if 0 = 0 then some (⟨none, none, 99, 5, true⟩ : Node) else none)
          = some n := hn
      rw [if_pos rfl] at hn2
      have h2 : (⟨none, none, 99, 5, true⟩ : Node) = n := Option.some.inj hn2
      subst h2
      constructor
      · decide
      · show (5 : Nat) ≤ counterMod - 1
        norm_num [counterMod]
    · intro i n hn ha
      by_cases h0 : i = 0
      · simp [h0]
      · have hn2 : (if i = 0 then some (⟨none, none, 99, 5, true⟩ : Node) else none)
            = some n := hn
        rw [if_neg h0] at hn2
        exact Option.noConfusion hn2
  exact ⟨hOK, (C3_counter_overflow_reset _ [0] hOK).1⟩

/-- C4: at a quiescent point head/tail/empty() agree on emptiness, every
linked node's counter is the removed sentinel or positive and bounded by
`currentCounter`, and append, prepend, insert and remove all preserve
well-formedness. -/
theorem C4_invariant_preservation (s : CallbackList) (cb b h : Nat) (hWF : WF s) :
    (∃ ids, listOK s ids ∧ (s.head = none ↔ s.tail = none) ∧
      (s.head = none ↔ listEmpty s = true) ∧
      (∀ i ∈ ids, ∀ n, s.nodes i = some n →
        n.counter = 0 ∨ (0 < n.counter ∧ n.counter ≤ s.currentCounter))) ∧
    WF (append s cb).2 ∧ WF (prepend s cb).2 ∧
    WF (insert s cb b).2 ∧ WF (remove s h).2 := by
  obtain ⟨ids, hOK⟩ := hWF
  have hiff := listOK_empty_iff s ids hOK
  refine ⟨⟨ids, hOK, hiff.1, hiff.2.1, ?_⟩, WF_append s cb ⟨ids, hOK⟩,
    WF_prepend s cb ⟨ids, hOK⟩, WF_insert s cb b ⟨ids, hOK⟩, WF_remove s h ⟨ids, hOK⟩⟩
  intro i hi n hn
  exact Or.inr (hOK.2.2.2.2.1 i hi n hn)

/-- Witness for C4 at the empty list. -/
theorem C4_witness :
    (∃ ids, listOK emptyList ids ∧ (emptyList.head = none ↔ emptyList.tail = none) ∧
      (emptyList.head = none ↔ listEmpty emptyList = true) ∧
      (∀ i ∈ ids, ∀ n, emptyList.nodes i = some n →
        n.counter = 0 ∨ (0 < n.counter ∧ n.counter ≤ emptyList.currentCounter))) ∧
    WF (append emptyList 3).2 ∧ WF (prepend emptyList 3).2 ∧
    WF (insert emptyList 3 4).2 ∧ WF (remove emptyList 0).2 :=
  C4_invariant_preservation emptyList 3 4 0 ⟨[], listOK_emptyList⟩

set_option maxHeartbeats 2000000 in
/-- C5: appending a, b, c to a fresh list yields a list every dispatch walks in
exactly the order a, b, c: forEach's trace, operator()'s invocation trace, the
set of nodes any dispatch visits, and forEachIf's visitor trace all list them
in insertion order. -/
theorem C5_dispatch_order (a b c : Nat) :
    forEachTrace (append (append (append emptyList a).2 b).2 c).2 = [a, b, c] ∧
    (invoke (append (append (append emptyList a).2 b).2 c).2 true).1 = [a, b, c] ∧
    visitedIds (append (append (append emptyList a).2 b).2 c).2
      (append (append (append emptyList a).2 b).2 c).2.currentCounter = [0, 1, 2] ∧
    forEachIfTrace (append (append (append emptyList a).2 b).2 c).2 (fun _ => true)
      = ([a, b, c], true) :=
  ⟨rfl, rfl, rfl, rfl⟩

/-- C7: `insert` whose Handle no longer upgrades behaves exactly as `append`:
the resulting state and the returned Handle are append's. -/
theorem C7_stale_insert_appends (s : CallbackList) (cb before : Nat)
    (hstale : lockHandle s before = none) :
    insert s cb before = append s cb := by
  simp only [insert]
  rw [hstale]

/-- Witness for C7: inserting before a never-allocated handle on a fresh list. -/
theorem C7_witness :
    lockHandle emptyList 3 = none ∧ insert emptyList 9 3 = append emptyList 9 :=
  ⟨by decide, C7_stale_insert_appends emptyList 9 3 (by decide)⟩

/-- C8: removing through a stale Handle returns false and leaves the state
unchanged; after a successful remove the Handle reports absent and a second
remove through it returns false with no effect. -/
theorem C8_stale_remove (s : CallbackList) (h : Nat) :
    (lockHandle s h = none → remove s h = (false, s)) ∧
    (∀ nh, s.nodes h = some nh → nh.alive = true →
      handleLive (remove s h).2 h = false ∧
      remove (remove s h).2 h = (false, (remove s h).2)) := by
  constructor
  · intro hstale
    simp only [remove]
    rw [hstale]
  · intro nh hh hha
    obtain ⟨m, hm, hma⟩ := remove_kills s h nh hh hha
    constructor
    · simp [handleLive, hm, hma]
    · have hlock2 : lockHandle (remove s h).2 h = none := by
        simp [lockHandle, hm, hma]
      exact remove_stale_eq _ _ hlock2

/-- Witness for C8: a stale remove on the fresh list, and a double remove after
one append. -/
theorem C8_witness :
    remove emptyList 3 = (false, emptyList) ∧
    handleLive (remove (append emptyList 5).2 0).2 0 = false ∧
    remove (remove (append emptyList 5).2 0).2 0 = (false, (remove (append emptyList 5).2 0).2) := by
  refine ⟨(C8_stale_remove emptyList 3).1 (by decide), ?_, ?_⟩
  · exact ((C8_stale_remove (append emptyList 5).2 0).2 ⟨none, none, 5, 1, true⟩
      (by decide) (by decide)).1
  · exact ((C8_stale_remove (append emptyList 5).2 0).2 ⟨none, none, 5, 1, true⟩
      (by decide) (by decide)).2

end Eventpp

namespace Eventpp

/-- C1 (counterexample to the claim as stated): with `currentCounter` at its
maximum value, a dispatch snapshots `2^64 - 1`; a subsequent `append` triggers
the overflow reset, so the new node receives counter 1, which is not strictly
greater than the snapshot, and the dispatch with the old snapshot does visit
(and hence invoke) the newly appended callback. -/
theorem C1_counterexample :
    listOK { emptyList with currentCounter := counterMod - 1 } [] ∧
    (((append { emptyList with currentCounter := counterMod - 1 } 7).2.nodes
        (append { emptyList with currentCounter := counterMod - 1 } 7).1).map Node.counter
      = some 1) ∧
    ¬((1 : Nat) > counterMod - 1) ∧
    (append { emptyList with currentCounter := counterMod - 1 } 7).1 ∈
      visitedIds (append { emptyList with currentCounter := counterMod - 1 } 7).2
        (counterMod - 1) :=
  ⟨listOK_seeded _ (by norm_num [counterMod]), by decide, by decide, by decide⟩

/-- C1 (amended): provided the insertion does not trigger the 64-bit overflow
reset, a callback inserted by append, prepend or insert after a dispatch has
snapshotted any `c ≤ currentCounter` receives the strictly greater counter
`currentCounter + 1`, and a traversal using snapshot `c` never visits it. -/
theorem C1_fresh_node_invisible (s : CallbackList) (ids : List Nat)
    (c cb b : Nat) (hOK : listOK s ids) (hsnap : c ≤ s.currentCounter)
    (hnoov : s.currentCounter + 1 < counterMod) :
    (∃ m, (append s cb).2.nodes (append s cb).1 = some m ∧
       m.counter = s.currentCounter + 1 ∧ c < m.counter ∧
       (append s cb).1 ∉ visitedIds (append s cb).2 c) ∧
    (∃ m, (prepend s cb).2.nodes (prepend s cb).1 = some m ∧
       m.counter = s.currentCounter + 1 ∧ c < m.counter ∧
       (prepend s cb).1 ∉ visitedIds (prepend s cb).2 c) ∧
    (∃ m, (insert s cb b).2.nodes (insert s cb b).1 = some m ∧
       m.counter = s.currentCounter + 1 ∧ c < m.counter ∧
       (insert s cb b).1 ∉ visitedIds (insert s cb b).2 c) := by
  have heq0 := getNextCounter_no_overflow s hnoov
  have hOKq : listOK ({ s with currentCounter := s.currentCounter + 1 } : CallbackList) ids := by
    have h1 := (getNextCounter_listOK s ids hOK).1
    rw [heq0] at h1
    exact h1
  have happ : ∃ m, (append s cb).2.nodes (append s cb).1 = some m ∧
      m.counter = s.currentCounter + 1 ∧ c < m.counter ∧
      (append s cb).1 ∉ visitedIds (append s cb).2 c := by
    have hspec := appendLink_spec { s with currentCounter := s.currentCounter + 1 } cb
      (s.currentCounter + 1) ids hOKq rfl (Nat.succ_pos _)
    obtain ⟨m, hm, -, hmc, -, -⟩ := hspec.2.2.2.2
    have heqapp : append s cb
        = appendLink { s with currentCounter := s.currentCounter + 1 } cb
            (s.currentCounter + 1) := by
      show appendLink (getNextCounter s).2 cb (getNextCounter s).1 = _
      rw [heq0]
    rw [heqapp]
    have h1 : (appendLink { s with currentCounter := s.currentCounter + 1 } cb
        (s.currentCounter + 1)).1 = s.nextId := hspec.1
    rw [h1]
    have hm2 : (appendLink { s with currentCounter := s.currentCounter + 1 } cb
        (s.currentCounter + 1)).2.nodes s.nextId = some m := hm
    exact ⟨m, hm2, hmc, by omega,
      not_visited_of_counter_gt _ _ _ m hm2 (by omega)⟩
  have hpre : ∃ m, (prepend s cb).2.nodes (prepend s cb).1 = some m ∧
      m.counter = s.currentCounter + 1 ∧ c < m.counter ∧
      (prepend s cb).1 ∉ visitedIds (prepend s cb).2 c := by
    have hspec := prependLink_spec { s with currentCounter := s.currentCounter + 1 } cb
      (s.currentCounter + 1) ids hOKq rfl (Nat.succ_pos _)
    obtain ⟨m, hm, -, hmc, -⟩ := hspec.2.2.2.2
    have heqpre : prepend s cb
        = prependLink { s with currentCounter := s.currentCounter + 1 } cb
            (s.currentCounter + 1) := by
      show prependLink (getNextCounter s).2 cb (getNextCounter s).1 = _
      rw [heq0]
    rw [heqpre]
    have h1 : (prependLink { s with currentCounter := s.currentCounter + 1 } cb
        (s.currentCounter + 1)).1 = s.nextId := hspec.1
    rw [h1]
    have hm2 : (prependLink { s with currentCounter := s.currentCounter + 1 } cb
        (s.currentCounter + 1)).2.nodes s.nextId = some m := hm
    exact ⟨m, hm2, hmc, by omega,
      not_visited_of_counter_gt _ _ _ m hm2 (by omega)⟩
  refine ⟨happ, hpre, ?_⟩
  cases hlock : lockHandle s b with
  | none =>
    rw [insert_stale_eq s cb b hlock]
    exact happ
  | some b2 =>
    obtain ⟨heq, n, hn, ha⟩ := lockHandle_some_inv s b b2 hlock
    rw [heq] at hlock
    have hnq : ({ s with currentCounter := s.currentCounter + 1 } : CallbackList).nodes b
        = some n := hn
    have hspec := insertLink_spec { s with currentCounter := s.currentCounter + 1 } cb
      (s.currentCounter + 1) b n ids hOKq rfl (Nat.succ_pos _) hnq ha
    obtain ⟨A, B, hAB, hfst, -, -, -, -, -, hnew, -, -, -⟩ := hspec
    have heqins : insert s cb b
        = insertLink { s with currentCounter := s.currentCounter + 1 } cb
            (s.currentCounter + 1) b := by
      rw [insert_live_eq s cb b b hlock, heq0]
    rw [heqins]
    have h1 : (insertLink { s with currentCounter := s.currentCounter + 1 } cb
        (s.currentCounter + 1) b).1 = s.nextId := hfst
    rw [h1]
    have hm2 : (insertLink { s with currentCounter := s.currentCounter + 1 } cb
        (s.currentCounter + 1) b).2.nodes s.nextId
        = some ⟨n.previous, some b, cb, s.currentCounter + 1, true⟩ := hnew
    exact ⟨⟨n.previous, some b, cb, s.currentCounter + 1, true⟩, hm2, rfl,
      show c < s.currentCounter + 1 by omega,
      not_visited_of_counter_gt _ _ _ _ hm2 (show c < s.currentCounter + 1 by omega)⟩

/-- Witness for the amended C1 at the fresh list with snapshot 0. -/
theorem C1_witness :
    (∃ m, (append emptyList 5).2.nodes (append emptyList 5).1 = some m ∧
       m.counter = emptyList.currentCounter + 1 ∧ 0 < m.counter ∧
       (append emptyList 5).1 ∉ visitedIds (append emptyList 5).2 0) ∧
    (∃ m, (prepend emptyList 5).2.nodes (prepend emptyList 5).1 = some m ∧
       m.counter = emptyList.currentCounter + 1 ∧ 0 < m.counter ∧
       (prepend emptyList 5).1 ∉ visitedIds (prepend emptyList 5).2 0) ∧
    (∃ m, (insert emptyList 5 0).2.nodes (insert emptyList 5 0).1 = some m ∧
       m.counter = emptyList.currentCounter + 1 ∧ 0 < m.counter ∧
       (insert emptyList 5 0).1 ∉ visitedIds (insert emptyList 5 0).2 0) :=
  C1_fresh_node_invisible emptyList [] 0 5 0 listOK_emptyList (by decide) (by decide)

end Eventpp

namespace Eventpp

/-- `append` preserves the invariant, recording the new node at the end, as
long as the counter increment does not overflow. -/
theorem listOK_append (s : CallbackList) (ids : List Nat) (cb : Nat)
    (hOK : listOK s ids) (hnoov : s.currentCounter + 1 < counterMod) :
    listOK (append s cb).2 (ids ++ [s.nextId]) := by
  have heq0 := getNextCounter_no_overflow s hnoov
  have hOKq : listOK ({ s with currentCounter := s.currentCounter + 1 } : CallbackList) ids := by
    have h1 := (getNextCounter_listOK s ids hOK).1
    rw [heq0] at h1
    exact h1
  have hspec := appendLink_spec { s with currentCounter := s.currentCounter + 1 } cb
    (s.currentCounter + 1) ids hOKq rfl (Nat.succ_pos _)
  have heqapp : append s cb
      = appendLink { s with currentCounter := s.currentCounter + 1 } cb
          (s.currentCounter + 1) := by
    show appendLink (getNextCounter s).2 cb (getNextCounter s).1 = _
    rw [heq0]
  rw [heqapp]
  exact hspec.2.1

/-- C2: removing a live node splices it out of the chain — its neighbours are
relinked, head and tail are updated exactly when they pointed at it — its
counter becomes the removed sentinel 0 while its own previous/next/callback
fields are untouched, every unrelated node is unchanged, and no traversal of
the resulting list, at any snapshot, visits the removed node. -/
theorem C2_remove_tombstone (s : CallbackList) (h : Nat) (nh : Node)
    (ids : List Nat) (hOK : listOK s ids) (hh : s.nodes h = some nh)
    (hha : nh.alive = true) :
    ∃ A B, ids = A ++ h :: B ∧
      (remove s h).1 = true ∧
      listOK (remove s h).2 (A ++ B) ∧
      (∃ m, (remove s h).2.nodes h = some m ∧ m.counter = 0 ∧
        m.previous = nh.previous ∧ m.next = nh.next ∧ m.callback = nh.callback) ∧
      (remove s h).2.head = (if s.head = some h then nh.next else s.head) ∧
      (remove s h).2.tail = (if s.tail = some h then nh.previous else s.tail) ∧
      (∀ j, nh.next = some j →
        (remove s h).2.nodes j
          = (s.nodes j).map (fun m => { m with previous := nh.previous })) ∧
      (∀ p, nh.previous = some p →
        (remove s h).2.nodes p
          = (s.nodes p).map (fun m => { m with next := nh.next })) ∧
      (∀ x, x ≠ h → nh.next ≠ some x → nh.previous ≠ some x →
        (remove s h).2.nodes x = s.nodes x) ∧
      (∀ c, h ∉ visitedIds (remove s h).2 c) := by
  obtain ⟨A, B, hAB, hret, hOK2, hcell, -, -, hhd, htl, hnx, hpv, hfr⟩ :=
    remove_spec s h nh ids hOK hh hha
  refine ⟨A, B, hAB, hret, hOK2, ⟨{ nh with counter := 0, alive := false },
    hcell, rfl, rfl, rfl, rfl⟩, hhd, htl, hnx, hpv, hfr, ?_⟩
  intro c
  exact not_visited_of_removed (remove s h).2 h _ hcell rfl c

/-- Witness for C2: remove the only node of a one-element list. -/
theorem C2_witness :
    ∃ A B, [0] = A ++ 0 :: B ∧
      (remove (append emptyList 5).2 0).1 = true ∧
      listOK (remove (append emptyList 5).2 0).2 (A ++ B) ∧
      (∃ m, (remove (append emptyList 5).2 0).2.nodes 0 = some m ∧ m.counter = 0 ∧
        m.previous = (⟨none, none, 5, 1, true⟩ : Node).previous ∧
        m.next = (⟨none, none, 5, 1, true⟩ : Node).next ∧
        m.callback = (⟨none, none, 5, 1, true⟩ : Node).callback) ∧
      (remove (append emptyList 5).2 0).2.head
        = (if (append emptyList 5).2.head = some 0
            then (⟨none, none, 5, 1, true⟩ : Node).next
            else (append emptyList 5).2.head) ∧
      (remove (append emptyList 5).2 0).2.tail
        = (if (append emptyList 5).2.tail = some 0
            then (⟨none, none, 5, 1, true⟩ : Node).previous
            else (append emptyList 5).2.tail) ∧
      (∀ j, (⟨none, none, 5, 1, true⟩ : Node).next = some j →
        (remove (append emptyList 5).2 0).2.nodes j
          = ((append emptyList 5).2.nodes j).map
              (fun m => { m with previous := (⟨none, none, 5, 1, true⟩ : Node).previous })) ∧
      (∀ p, (⟨none, none, 5, 1, true⟩ : Node).previous = some p →
        (remove (append emptyList 5).2 0).2.nodes p
          = ((append emptyList 5).2.nodes p).map
              (fun m => { m with next := (⟨none, none, 5, 1, true⟩ : Node).next })) ∧
      (∀ x, x ≠ 0 → (⟨none, none, 5, 1, true⟩ : Node).next ≠ some x →
        (⟨none, none, 5, 1, true⟩ : Node).previous ≠ some x →
        (remove (append emptyList 5).2 0).2.nodes x = (append emptyList 5).2.nodes x) ∧
      (∀ c, 0 ∉ visitedIds (remove (append emptyList 5).2 0).2 c) :=
  C2_remove_tombstone (append emptyList 5).2 0 ⟨none, none, 5, 1, true⟩ [0]
    (listOK_append emptyList [] 5 listOK_emptyList (by decide)) (by decide) (by decide)

end Eventpp

namespace Eventpp

/-- C6: over a well-formed list, `forEachIf` returns whether the visitor held
on every eligible callback (it stops at the first false — the instrumented
trace is the passing prefix plus the one failing callback);  `forEach` ignores
the visitor result and hands over every eligible callback in order; `invoke`
is `forEachIf` with the policy predicate consulted after each call: with the
default always-continue policy it invokes every eligible callback, with a
policy that stops it invokes only the first. -/
theorem C6_dispatch_protocol (s : CallbackList) (ids : List Nat) (p : Nat → Bool)
    (hOK : listOK s ids) :
    forEachIf s p = (eligCallbacks s.nodes s.currentCounter ids).all p ∧
    forEachIfTrace s p
      = ((eligCallbacks s.nodes s.currentCounter ids).takeWhile p
          ++ ((eligCallbacks s.nodes s.currentCounter ids).dropWhile p).take 1,
         (eligCallbacks s.nodes s.currentCounter ids).all p) ∧
    forEachTrace s = eligCallbacks s.nodes s.currentCounter ids ∧
    (invoke s true).1 = eligCallbacks s.nodes s.currentCounter ids ∧
    (invoke s true).2 = true ∧
    (invoke s false).1 = (eligCallbacks s.nodes s.currentCounter ids).take 1 := by
  refine ⟨?_, ?_, ?_, ?_, ?_, ?_⟩
  · show (doForEachIf s (fun (u : Unit) _ n => (u, p n.callback)) ()).2 = _
    rw [dispatch_eq_stopFold s ids hOK, stopFold_unit]
    simp [eligCallbacks]
  · show doForEachIf s (fun (tr : List Nat) _ n => (tr ++ [n.callback], p n.callback)) [] = _
    rw [dispatch_eq_stopFold s ids hOK, stopFold_pred]
    simp [eligCallbacks]
  · show (doForEachIf s (fun (tr : List Nat) _ n => (tr ++ [n.callback], true)) []).1 = _
    rw [dispatch_eq_stopFold s ids hOK, stopFold_always]
    simp [eligCallbacks]
  · show (doForEachIf s (fun (tr : List Nat) _ n => (tr ++ [n.callback], true)) []).1 = _
    rw [dispatch_eq_stopFold s ids hOK, stopFold_always]
    simp [eligCallbacks]
  · show (doForEachIf s (fun (tr : List Nat) _ n => (tr ++ [n.callback], true)) []).2 = _
    rw [dispatch_eq_stopFold s ids hOK, stopFold_always]
  · show (doForEachIf s (fun (tr : List Nat) _ n => (tr ++ [n.callback], false)) []).1 = _
    rw [dispatch_eq_stopFold s ids hOK, stopFold_never]
    simp [eligCallbacks]

/-- A two-element list: callbacks 1 then 2, appended in that order. -/
def cList2 : CallbackList := (append (append emptyList 1).2 2).2

/-- Witness for C6 on the two-element list with a visitor rejecting 2. -/
theorem C6_witness :
    forEachIf cList2 (fun x => x == 1)
      = (eligCallbacks cList2.nodes cList2.currentCounter [0, 1]).all (fun x => x == 1) ∧
    forEachIfTrace cList2 (fun x => x == 1)
      = ((eligCallbacks cList2.nodes cList2.currentCounter [0, 1]).takeWhile (fun x => x == 1)
          ++ ((eligCallbacks cList2.nodes cList2.currentCounter [0, 1]).dropWhile
                (fun x => x == 1)).take 1,
         (eligCallbacks cList2.nodes cList2.currentCounter [0, 1]).all (fun x => x == 1)) ∧
    forEachTrace cList2 = eligCallbacks cList2.nodes cList2.currentCounter [0, 1] ∧
    (invoke cList2 true).1 = eligCallbacks cList2.nodes cList2.currentCounter [0, 1] ∧
    (invoke cList2 true).2 = true ∧
    (invoke cList2 false).1
      = (eligCallbacks cList2.nodes cList2.currentCounter [0, 1]).take 1 :=
  C6_dispatch_protocol cList2 [0, 1] (fun x => x == 1)
    (listOK_append (append emptyList 1).2 [0] 2
      (listOK_append emptyList [] 1 listOK_emptyList (by decide)) (by decide))

end Eventpp

namespace Eventpp

/-- The dispatch loop starting from a null node pointer does nothing. -/
theorem doForEachIfFrom_none {σ : Type} (heap : Heap) (f : σ → Nat → Node → σ × Bool)
    (snap fuel : Nat) (acc : σ) :
    doForEachIfFrom heap f snap fuel none acc = (acc, true) := by
  cases fuel <;> rfl

/-- C9: when `head` is null every dispatch calls no callback and `forEachIf`
returns true; in general `forEachIf` returns true exactly when the visitor
holds on every eligible callback (no visited call returned false). -/
theorem C9_empty_dispatch (s : CallbackList) (ids : List Nat) (p : Nat → Bool)
    (c : Bool) (hOK : listOK s ids) :
    (s.head = none → forEachTrace s = [] ∧ (invoke s c).1 = [] ∧ (invoke s c).2 = true ∧
      forEachIf s p = true) ∧
    (forEachIf s p = true ↔
      ∀ x ∈ eligCallbacks s.nodes s.currentCounter ids, p x = true) := by
  have h1 : forEachIf s p = (eligCallbacks s.nodes s.currentCounter ids).all p := by
    show (doForEachIf s (fun (u : Unit) _ n => (u, p n.callback)) ()).2 = _
    rw [dispatch_eq_stopFold s ids hOK, stopFold_unit]
    simp [eligCallbacks]
  refine ⟨?_, ?_⟩
  · intro hh
    refine ⟨?_, ?_, ?_, ?_⟩
    · show (doForEachIfFrom s.nodes (fun (tr : List Nat) _ n => (tr ++ [n.callback], true))
        s.currentCounter s.nextId s.head []).1 = []
      rw [hh, doForEachIfFrom_none]
    · show (doForEachIfFrom s.nodes (fun (tr : List Nat) _ n => (tr ++ [n.callback], c))
        s.currentCounter s.nextId s.head []).1 = []
      rw [hh, doForEachIfFrom_none]
    · show (doForEachIfFrom s.nodes (fun (tr : List Nat) _ n => (tr ++ [n.callback], c))
        s.currentCounter s.nextId s.head []).2 = true
      rw [hh, doForEachIfFrom_none]
    · show (doForEachIfFrom s.nodes (fun (u : Unit) _ n => (u, p n.callback))
        s.currentCounter s.nextId s.head ()).2 = true
      rw [hh, doForEachIfFrom_none]
  · rw [h1, List.all_eq_true]

/-- Witness for C9 at the freshly constructed (empty) list. -/
theorem C9_witness :
    (emptyList.head = none → forEachTrace emptyList = [] ∧
      (invoke emptyList false).1 = [] ∧ (invoke emptyList false).2 = true ∧
      forEachIf emptyList (fun _ => false) = true) ∧
    (forEachIf emptyList (fun _ => false) = true ↔
      ∀ x ∈ eligCallbacks emptyList.nodes emptyList.currentCounter [],
        (fun _ : Nat => false) x = true) :=
  C9_empty_dispatch emptyList [] (fun _ => false) false listOK_emptyList

end Eventpp

namespace Eventpp

/-- C10 (counterexample to the claim as stated): on a list whose 64-bit
counter is at its maximum, inserting before a live node triggers the overflow
reset inside `getNextCounter`, which rewrites the pre-existing node's counter
from 5 to 1 — so the counters of pre-existing nodes are not always unchanged
by an insertion. -/
theorem C10_counterexample :
    listOK (⟨fun j => if j = 0 then some ⟨none, none, 99, 5, true⟩ else none,
      1, some 0, some 0, counterMod - 1⟩ : CallbackList) [0] ∧
    lockHandle (⟨fun j => if j = 0 then some ⟨none, none, 99, 5, true⟩ else none,
      1, some 0, some 0, counterMod - 1⟩ : CallbackList) 0 = some 0 ∧
    (((⟨fun j => if j = 0 then some ⟨none, none, 99, 5, true⟩ else none,
      1, some 0, some 0, counterMod - 1⟩ : CallbackList).nodes 0).map Node.counter
      = some 5) ∧
    (((insert (⟨fun j => if j = 0 then some ⟨none, none, 99, 5, true⟩ else none,
      1, some 0, some 0, counterMod - 1⟩ : CallbackList) 7 0).2.nodes 0).map Node.counter
      = some 1) := by
  refine ⟨?_, by decide, by decide, by decide⟩
  refine ⟨by decide, by decide, by decide, ?_, ?_, ?_, by norm_num [counterMod]⟩
  · intro i hi
    have hi2 : 1 ≤ i := hi
    show (if i = 0 then _ else none) = none
    rw [if_neg (by omega)]
  · intro i hi n hn
    have h0 : i = 0 := by simpa using hi
    subst h0
    have hn2 : (if 0 = 0 then some (⟨none, none, 99, 5, true⟩ : Node) else none)
        = some n := hn
    rw [if_pos rfl] at hn2
    have h2 : (⟨none, none, 99, 5, true⟩ : Node) = n := Option.some.inj hn2
    subst h2
    constructor
    · decide
    · show (5 : Nat) ≤ counterMod - 1
      norm_num [counterMod]
  · intro i n hn ha
    by_cases h0 : i = 0
    · simp [h0]
    · have hn2 : (if i = 0 then some (⟨none, none, 99, 5, true⟩ : Node) else none)
          = some n := hn
      rw [if_neg h0] at hn2
      exact Option.noConfusion hn2

/-- C10 (amended): provided the counter increment does not overflow, inserting
before a live node links the new node immediately before it, updates head
exactly when the referenced node was the head, never modifies tail, and leaves
the callback and counter of every pre-existing node unchanged. -/
theorem C10_insert_frame (s : CallbackList) (cb b : Nat) (bn : Node)
    (ids : List Nat) (hOK : listOK s ids) (hb : s.nodes b = some bn)
    (hba : bn.alive = true) (hnoov : s.currentCounter + 1 < counterMod) :
    ∃ A B, ids = A ++ b :: B ∧
      (insert s cb b).1 = s.nextId ∧
      listOK (insert s cb b).2 (A ++ s.nextId :: b :: B) ∧
      (insert s cb b).2.tail = s.tail ∧
      (insert s cb b).2.head
        = (if s.head = some b then some s.nextId else s.head) ∧
      (insert s cb b).2.nodes s.nextId
        = some ⟨bn.previous, some b, cb, s.currentCounter + 1, true⟩ ∧
      (insert s cb b).2.nodes b = some { bn with previous := some s.nextId } ∧
      (∀ p, bn.previous = some p →
        (insert s cb b).2.nodes p
          = (s.nodes p).map (fun m => { m with next := some s.nextId })) ∧
      (∀ x, x ≠ s.nextId → x ≠ b → bn.previous ≠ some x →
        (insert s cb b).2.nodes x = s.nodes x) ∧
      (∀ x, x ≠ s.nextId →
        ((insert s cb b).2.nodes x).map Node.callback
          = (s.nodes x).map Node.callback ∧
        ((insert s cb b).2.nodes x).map Node.counter
          = (s.nodes x).map Node.counter) := by
  have heq0 := getNextCounter_no_overflow s hnoov
  have hOKq : listOK ({ s with currentCounter := s.currentCounter + 1 } : CallbackList) ids := by
    have h1 := (getNextCounter_listOK s ids hOK).1
    rw [heq0] at h1
    exact h1
  have hlock : lockHandle s b = some b := by simp [lockHandle, hb, hba]
  have heqins : insert s cb b
      = insertLink { s with currentCounter := s.currentCounter + 1 } cb
          (s.currentCounter + 1) b := by
    rw [insert_live_eq s cb b b hlock, heq0]
  have hnq : ({ s with currentCounter := s.currentCounter + 1 } : CallbackList).nodes b
      = some bn := hb
  obtain ⟨A, B, hAB, hfst, hOK2, hcc2, hni2, htl2, hhd2, hnew, hbcell, hpw, hother⟩ :=
    insertLink_spec { s with currentCounter := s.currentCounter + 1 } cb
      (s.currentCounter + 1) b bn ids hOKq rfl (Nat.succ_pos _) hnq hba
  have hqn : ({ s with currentCounter := s.currentCounter + 1 } : CallbackList).nodes
      = s.nodes := rfl
  rw [heqins]
  refine ⟨A, B, hAB, hfst, hOK2, htl2, hhd2, hnew, hbcell, hpw, hother, ?_⟩
  intro x hx
  by_cases hxb : x = b
  · subst hxb
    rw [hbcell, hb]
    exact ⟨rfl, rfl⟩
  · by_cases hxp : bn.previous = some x
    · rw [hpw x hxp, hqn]
      cases hsx : s.nodes x with
      | none => exact ⟨rfl, rfl⟩
      | some m => exact ⟨rfl, rfl⟩
    · rw [hother x hx hxb hxp, hqn]
      exact ⟨rfl, rfl⟩

/-- A one-element list: callback 4 appended to the fresh list. -/
def cList1 : CallbackList := (append emptyList 4).2

/-- Witness for the amended C10: insert before the only node of a one-element
list. -/
theorem C10_witness :
    ∃ A B, [0] = A ++ 0 :: B ∧
      (insert cList1 7 0).1 = cList1.nextId ∧
      listOK (insert cList1 7 0).2 (A ++ cList1.nextId :: 0 :: B) ∧
      (insert cList1 7 0).2.tail = cList1.tail ∧
      (insert cList1 7 0).2.head
        = (if cList1.head = some 0 then some cList1.nextId else cList1.head) ∧
      (insert cList1 7 0).2.nodes cList1.nextId
        = some ⟨(⟨none, none, 4, 1, true⟩ : Node).previous, some 0, 7,
            cList1.currentCounter + 1, true⟩ ∧
      (insert cList1 7 0).2.nodes 0
        = some { (⟨none, none, 4, 1, true⟩ : Node) with previous := some cList1.nextId } ∧
      (∀ p, (⟨none, none, 4, 1, true⟩ : Node).previous = some p →
        (insert cList1 7 0).2.nodes p
          = (cList1.nodes p).map (fun m => { m with next := some cList1.nextId })) ∧
      (∀ x, x ≠ cList1.nextId → x ≠ 0 →
        (⟨none, none, 4, 1, true⟩ : Node).previous ≠ some x →
        (insert cList1 7 0).2.nodes x = cList1.nodes x) ∧
      (∀ x, x ≠ cList1.nextId →
        ((insert cList1 7 0).2.nodes x).map Node.callback
          = (cList1.nodes x).map Node.callback ∧
        ((insert cList1 7 0).2.nodes x).map Node.counter
          = (cList1.nodes x).map Node.counter) :=
  C10_insert_frame cList1 7 0 ⟨none, none, 4, 1, true⟩ [0]
    (listOK_append emptyList [] 4 listOK_emptyList (by decide)) (by decide) (by decide)
    (by decide)

end Eventpp
